import Mathlib

/-!
Verification of the RTCP feedback-packet codec (REMB / TMMBR / TMMBN) of the
`rtcp` Go package: a shallow embedding of the source files
`receiver_estimated_maximum_bitrate.go` (given as `src/unnamed/part_000`,
together with the bit-packing helpers and the bitrate codec), `tmmbr.go`
(`src/unnamed/part_001`) and `tmmbn.go`, plus the external RTCP `Header`
codec modelled from the specification, and theorems settling the claims
about the marshal/unmarshal contract and the compact bitrate encoding.

Bytes are modelled as natural numbers `< 256`; Go's fixed-width unsigned
arithmetic is rendered with explicit `% 2^w` at every point where a Go
conversion or a Go operation on a fixed-width type can wrap.  `float32`
values are modelled exactly (see `F32` below); every floating-point
operation the source performs on the paths covered by the claims is exact
in IEEE 754 binary32 (comparison against an exactly representable constant,
halving of a value `≥ 2^18`, `Floor`, bit composition via `Float32frombits`),
except division by 1000 in `bitrateUnit`, which is embedded with a
correctly-rounded (round-to-nearest, ties-to-even) binary32 rounding step.
-/

set_option maxRecDepth 200000

attribute [local semireducible] Rat.mul Rat.add Rat.inv Rat.sub Rat.ofScientific

deriving instance DecidableEq for Except

/-- Sentinel error values of the package (`errors.go`): one constructor per
`err...` variable referenced by the three packet codecs and their helpers. -/
inductive RtcpError where
  | packetTooShort
  | badVersion
  | wrongPadding
  | wrongFeedbackType
  | wrongPayloadType
  | headerTooSmall
  | ssrcMustBeZero
  | missingREMBidentifier
  | ssrcNumAndLengthMismatch
  | badLength
  | wrongType
  | invalidBitrate
  | wrongMarshalSize
  | invalidHeader
  deriving DecidableEq, Repr

/-- Model of Go `float32`: NaN, signed infinity (`inf true` is `-Inf`), or a
finite value carried as its exact rational magnitude.  The sign of zero is
not tracked; no operation performed by the source on the claim-relevant
paths distinguishes `-0.0` from `0.0`. -/
inductive F32 where
  | nan : F32
  | inf : Bool → F32
  | fin : ℚ → F32
  deriving DecidableEq, Repr

/-- Go `x >= c` for a float32 `x` and an exactly-representable constant `c`.
IEEE 754 comparison: NaN compares false, `+Inf ≥ c` is true. -/
def F32.geQ : F32 → ℚ → Bool
  | .nan, _ => false
  | .inf s, _ => !s
  | .fin v, c => decide (c ≤ v)

/-- Go `x < 0` for a float32 `x`.  NaN compares false; `-0.0 < 0` is false
(and `-0.0` is modelled as `fin 0`). -/
def F32.lt0 : F32 → Bool
  | .nan => false
  | .inf s => s
  | .fin v => decide (v < 0)

/-- Go `uint(math.Floor(float64(x)))` for a float32 `x`.  The
float32→float64 conversion and `Floor` are exact; on the paths where the
source evaluates this, `x` is a finite value in `[0, 2^18)`, so the uint
conversion is in range.  For NaN (and the unreachable infinities) Go's
conversion is implementation-specific; it is modelled as `0` and no claim
depends on that value. -/
def F32.floorNat : F32 → ℕ
  | .fin v => v.floor.toNat
  | _ => 0

/-- Go `math.Float32frombits`: decompose a 32-bit pattern into sign,
exponent and mantissa fields and produce the IEEE 754 binary32 value. -/
def F32.frombits (b : ℕ) : F32 :=
  let sign : ℕ := b / 2 ^ 31 % 2
  let E : ℕ := b / 2 ^ 23 % 256
  let M : ℕ := b % 2 ^ 23
  if E = 255 then (if M = 0 then .inf (sign = 1) else .nan)
  else
    let mag : ℚ :=
      if E = 0 then (M : ℚ) / 2 ^ 149
      else if 150 ≤ E then ((2 ^ 23 + M : ℕ) : ℚ) * 2 ^ (E - 150)
      else ((2 ^ 23 + M : ℕ) : ℚ) / 2 ^ (150 - E)
    if sign = 1 then .fin (-mag) else .fin mag

/-- The constant `bitratemax = 0x3FFFFp+63` of `putBitrate` (exactly
representable in binary32: an 18-bit significand). -/
def bitratemax : ℚ := 0x3FFFF * 2 ^ 63

/-- The halving loop of `putBitrate`: `for bitrate >= (1 << 18) { bitrate /= 2.0; exp++ }`.
Halving a binary32 value `≥ 2^18` is exact, so the loop acts exactly on the
rational magnitude.  Fuel-indexed structural recursion; the source is called
with fuel `256`, which the loop never exhausts for any value `< 2^(18+256)`
(every finite float32 is `< 2^128`). -/
def encLoop : ℕ → ℚ → ℚ × ℕ
  | 0, bitrate => (bitrate, 0)
  | fuel + 1, bitrate =>
    if 2 ^ 18 ≤ bitrate then
      let r := encLoop fuel (bitrate / 2)
      (r.1, r.2 + 1)
    else (bitrate, 0)

/-- The `putBitrate` encoder: clamp at `bitratemax`, reject negatives,
repeatedly halve into `[0, 2^18)`, reject exponents `≥ 64`, floor to an
integer mantissa and pack `(exp<<2 | mantissa>>16, mantissa>>8, mantissa)`.
Returns the three bytes written to `buf[0..2]`; the error cases return
before any write, leaving the caller's buffer untouched.  The loop runs
only for finite values (negatives and `-Inf` are rejected first, `+Inf` was
clamped, and for NaN every comparison is false so the loop body never runs). -/
def putBitrate (bitrate : F32) : Except RtcpError (ℕ × ℕ × ℕ) :=
  let b := if bitrate.geQ bitratemax then F32.fin bitratemax else bitrate
  if b.lt0 then .error .invalidBitrate
  else
    let r : F32 × ℕ :=
      match b with
      | .fin v => ((fun s => (F32.fin s.1, s.2)) (encLoop 256 v))
      | x => (x, 0)
    if 2 ^ 6 ≤ r.2 then .error .invalidBitrate
    else
      let mantissa := r.1.floorNat
      .ok (r.2 * 4 % 256 ||| mantissa / 2 ^ 16 % 256,
           mantissa / 2 ^ 8 % 256,
           mantissa % 256)

/-- The mantissa-normalisation loop of `loadBitrate`:
`for (mantissa & (mantissamax + 1)) == 0 { exp--; mantissa *= 2 }`.
`exp` is a Go `byte`; on every reachable input it stays within `[127, 213]`
so neither the decrement nor the `ℕ` subtraction wraps.  Fuel-indexed; the
source runs it only for `mantissa ≠ 0`, where at most 23 iterations occur,
and it is invoked with fuel `24`. -/
def normLoop : ℕ → ℕ → ℕ → ℕ × ℕ
  | 0, exp, mantissa => (exp, mantissa)
  | fuel + 1, exp, mantissa =>
    if mantissa &&& 0x800000 = 0 then normLoop fuel (exp - 1) (mantissa * 2)
    else (exp, mantissa)

/-- The `loadBitrate` decoder on the three bytes `buf[0..2]`: extract the
6-bit exponent and 18-bit mantissa, bias the exponent by `127 + 23`,
left-normalise a nonzero mantissa, and compose a binary32 bit pattern.
All the byte/uint8 arithmetic stays below 256 (`b0 >> 2 ≤ 63`, biased
exponent `≤ 213`, decrements bounded below by 127), so plain `ℕ`
arithmetic is faithful; the final `uint32(exp)` widening is the `% 256`. -/
def loadBitrate (b0 b1 b2 : ℕ) : F32 :=
  let exp := b0 / 4 + 127 + 23
  let mantissa := b0 % 4 * 2 ^ 16 + b1 * 2 ^ 8 + b2
  let r := if mantissa ≠ 0 then normLoop 24 exp mantissa else (exp, mantissa)
  F32.frombits (r.1 % 256 * 2 ^ 23 ||| r.2 &&& 0x7FFFFF)

/-- Encode-then-decode of one bitrate value: the quantisation a bitrate
field undergoes in a marshal/unmarshal round trip.  On encoder failure the
value is returned unchanged (the round trip never reaches the decoder). -/
def quantizeBitrate (x : F32) : F32 :=
  match putBitrate x with
  | .ok t => loadBitrate t.1 t.2.1 t.2.2
  | .error _ => x

/-- Big-endian 16-bit write (`binary.BigEndian.PutUint16`). -/
def putUint16 (v : ℕ) : List ℕ := [v / 2 ^ 8 % 256, v % 256]

/-- Big-endian 32-bit write (`binary.BigEndian.PutUint32`); the argument is a
Go `uint32`, so the top byte carries `% 256` from the model's unbounded `ℕ`. -/
def putUint32 (v : ℕ) : List ℕ :=
  [v / 2 ^ 24 % 256, v / 2 ^ 16 % 256, v / 2 ^ 8 % 256, v % 256]

/-- Big-endian 32-bit read (`binary.BigEndian.Uint32`) at an offset that the
surrounding code has already checked to be in bounds (default `0` is never
produced by such a read). -/
def getUint32D (buf : List ℕ) (i : ℕ) : ℕ :=
  buf.getD i 0 * 2 ^ 24 + buf.getD (i + 1) 0 * 2 ^ 16 +
    buf.getD (i + 2) 0 * 2 ^ 8 + buf.getD (i + 3) 0

/-- Big-endian 32-bit read (`binary.BigEndian.Uint32 (b[i:])`) with Go's
runtime bounds check: `none` is the out-of-range panic (either of the slice
expression or of the 4-byte access). -/
def readUint32 (buf : List ℕ) (i : ℕ) : Option ℕ :=
  match buf[i]?, buf[i + 1]?, buf[i + 2]?, buf[i + 3]? with
  | some a, some b, some c, some d => some (a * 2 ^ 24 + b * 2 ^ 16 + c * 2 ^ 8 + d)
  | _, _, _, _ => none

/-- Constants of the packet family: `headerLength`/`ssrcLength` (external
Header codec, spec section 6), the 5-bit format discriminators and the two
8-bit payload types (spec section 3). -/
def headerLength : ℕ := 4

/-- `ssrcLength` (4 bytes), spec section 6. -/
def ssrcLength : ℕ := 4

/-- `FormatREMB = 15` (spec section 3). -/
def FormatREMB : ℕ := 15

/-- `FormatTMMBR = 3` (spec section 3). -/
def FormatTMMBR : ℕ := 3

/-- `FormatTMMBN = 4` (spec section 3). -/
def FormatTMMBN : ℕ := 4

/-- `TypeTransportSpecificFeedback = 205` (spec section 3). -/
def TypeTransportSpecificFeedback : ℕ := 205

/-- `TypePayloadSpecificFeedback = 206` (spec section 3). -/
def TypePayloadSpecificFeedback : ℕ := 206

/-- Modelled from the spec: the external RTCP `Header` entity (spec section
3/6; the `header.go` file of this repository is not under `src/`): version
2, a padding flag, a 5-bit format/count discriminator, an 8-bit payload
type and a 16-bit length in 32-bit words minus one. -/
structure Header where
  Padding : Bool
  Count : ℕ
  PacketType : ℕ
  Length : ℕ
  deriving DecidableEq, Repr

/-- Modelled from the spec: `Header.Marshal` writes the fixed 4-byte prefix
(2-bit version = 2, 1-bit padding, 5-bit count, 8-bit payload type, 16-bit
big-endian length; spec section 6); a count that does not fit the 5-bit
field is rejected. -/
def Header.Marshal (h : Header) : Except RtcpError (List ℕ) :=
  if 31 < h.Count then .error .invalidHeader
  else .ok ([2 * 64 + (if h.Padding then 32 else 0) + h.Count % 32,
             h.PacketType % 256] ++ putUint16 (h.Length % 2 ^ 16))

/-- Modelled from the spec: `Header.Unmarshal` parses the fixed 4-byte
prefix, rejecting a buffer shorter than 4 bytes (PacketTooShort) and a
version field other than 2 (BadVersion, spec sections 3 and 7); the reads
are guarded by the length check. -/
def Header.Unmarshal (buf : List ℕ) : Except RtcpError Header :=
  if buf.length < headerLength then .error .packetTooShort
  else
    let b0 := buf.getD 0 0
    if b0 / 64 % 4 ≠ 2 then .error .badVersion
    else .ok ⟨b0 / 32 % 2 = 1, b0 % 32, buf.getD 1 0,
              buf.getD 2 0 * 2 ^ 8 + buf.getD 3 0⟩

/-- `ReceiverEstimatedMaximumBitrate` packet structure.  `SenderSSRC` is a
Go `uint32` (`< 2^32` on every value the Go type can hold), `Bitrate` a
`float32`, `SSRCs` the destination SSRC list. -/
structure ReceiverEstimatedMaximumBitrate where
  SenderSSRC : ℕ
  Bitrate : F32
  SSRCs : List ℕ
  deriving DecidableEq, Repr

/-- `ReceiverEstimatedMaximumBitrate.MarshalSize`: `20 + 4*len(p.SSRCs)`. -/
def ReceiverEstimatedMaximumBitrate.MarshalSize
    (p : ReceiverEstimatedMaximumBitrate) : ℕ :=
  20 + 4 * p.SSRCs.length

/-- `ReceiverEstimatedMaximumBitrate.Marshal` composed with `MarshalTo`
into the exactly-sized buffer (`make([]byte, p.MarshalSize())`): the fixed
20-byte prefix (header byte 143, payload type 206, 16-bit length field,
sender SSRC, zero media SSRC, `REMB`, SSRC count byte, 3-byte bitrate)
followed by the destination SSRCs.  `byte(len(p.SSRCs))` and
`uint16(MarshalSize/4 - 1)` are Go narrowing conversions, hence the
`% 256` / `% 2^16`.  A `putBitrate` failure aborts with `nil` output
(`Except.error`); the buffer-length and `n != len(buf)` defensive checks
cannot trigger on the exactly-sized buffer. -/
def ReceiverEstimatedMaximumBitrate.Marshal
    (p : ReceiverEstimatedMaximumBitrate) : Except RtcpError (List ℕ) :=
  match putBitrate p.Bitrate with
  | .error e => .error e
  | .ok br =>
    .ok ([143, 206] ++ putUint16 ((p.MarshalSize / 4 - 1) % 2 ^ 16) ++
         putUint32 p.SenderSSRC ++ putUint32 0 ++
         [82, 69, 77, 66] ++
         [p.SSRCs.length % 256] ++ [br.1, br.2.1, br.2.2] ++
         p.SSRCs.flatMap putUint32)

/-- The SSRC-reading loop of `ReceiverEstimatedMaximumBitrate.Unmarshal`
(`for n := 20; n < size; n += 4`), reading `count = (size-20)/4` entries;
every read is inside the buffer because `size ≤ len(buf)` was checked. -/
def readSSRCs (buf : List ℕ) : ℕ → ℕ → List ℕ
  | 0, _ => []
  | count + 1, off => getUint32D buf off :: readSSRCs buf count (off + 4)

/-- `ReceiverEstimatedMaximumBitrate.Unmarshal`.  All byte reads happen
after the `len(buf) < 20` and `len(buf) < size` guards and are in bounds
(`size == 20 + 4*num` is enforced before the SSRC loop), so the `getD`
reads are faithful.  `size := int((length + 1) * 4)` is computed on the Go
`uint16`, hence the `% 2^16`. -/
def ReceiverEstimatedMaximumBitrate.Unmarshal (buf : List ℕ) :
    Except RtcpError ReceiverEstimatedMaximumBitrate :=
  if buf.length < 20 then .error .packetTooShort
  else
    let b0 := buf.getD 0 0
    if b0 / 64 ≠ 2 then .error .badVersion
    else if b0 / 32 % 2 ≠ 0 then .error .wrongPadding
    else if b0 % 32 ≠ 15 then .error .wrongFeedbackType
    else if buf.getD 1 0 ≠ 206 then .error .wrongPayloadType
    else
      let length := buf.getD 2 0 * 2 ^ 8 + buf.getD 3 0
      let size := (length + 1) * 4 % 2 ^ 16
      if size < 20 then .error .headerTooSmall
      else if buf.length < size then .error .packetTooShort
      else
        let senderSSRC := getUint32D buf 4
        if getUint32D buf 8 ≠ 0 then .error .ssrcMustBeZero
        else if ¬(buf.getD 12 0 = 82 ∧ buf.getD 13 0 = 69 ∧
                  buf.getD 14 0 = 77 ∧ buf.getD 15 0 = 66) then
          .error .missingREMBidentifier
        else
          let num := buf.getD 16 0
          if size ≠ 20 + 4 * num then .error .ssrcNumAndLengthMismatch
          else
            .ok ⟨senderSSRC,
                 loadBitrate (buf.getD 17 0) (buf.getD 18 0) (buf.getD 19 0),
                 readSSRCs buf ((size - 20) / 4) 20⟩

/-- `ReceiverEstimatedMaximumBitrate.Header`. -/
def ReceiverEstimatedMaximumBitrate.Header
    (p : ReceiverEstimatedMaximumBitrate) : Header :=
  ⟨false, FormatREMB, TypePayloadSpecificFeedback, (p.MarshalSize / 4 - 1) % 2 ^ 16⟩

/-- Outcome of a TMMBR/TMMBN `Unmarshal` call: a Go runtime panic (an
out-of-range slice access), an error return, or a populated receiver. -/
inductive UnmarshalResult (α : Type) where
  | panic : UnmarshalResult α
  | fail : RtcpError → UnmarshalResult α
  | ok : α → UnmarshalResult α
  deriving DecidableEq, Repr

/-- `TMMBREntry` (media SSRC as a Go `uint32`, bitrate as `float32`). -/
structure TMMBREntry where
  MediaSSRC : ℕ
  Bitrate : F32
  deriving DecidableEq, Repr

/-- `TMMBR` packet structure. -/
structure TMMBR where
  SenderSSRC : ℕ
  Entries : List TMMBREntry
  deriving DecidableEq, Repr

/-- `TMMBNEntry` (media SSRC as a Go `uint32`, bitrate as `float32`). -/
structure TMMBNEntry where
  MediaSSRC : ℕ
  Bitrate : F32
  deriving DecidableEq, Repr

/-- `TMMBN` packet structure. -/
structure TMMBN where
  SenderSSRC : ℕ
  Entries : List TMMBNEntry
  deriving DecidableEq, Repr

/-- `TMMBR.MarshalSize`: `headerLength + ssrcLength*2 + len(Entries)*(2*ssrcLength)`. -/
def TMMBR.MarshalSize (p : TMMBR) : ℕ :=
  headerLength + ssrcLength * 2 + p.Entries.length * (2 * ssrcLength)

/-- `TMMBR.Header`: count `FormatTMMBR`, type 205, `uint16(MarshalSize/4 - 1)`. -/
def TMMBR.Header (p : TMMBR) : Header :=
  ⟨false, FormatTMMBR, TypeTransportSpecificFeedback, (p.MarshalSize / 4 - 1) % 2 ^ 16⟩

/-- The FCI-writing loop of `TMMBR.Marshal`: for each entry, 4 bytes of
media SSRC, the 3 `putBitrate` bytes, and the zero-initialised overhead
byte the loop leaves untouched; the first `putBitrate` failure aborts the
whole marshal with `nil` output. -/
def TMMBR.entriesBytes : List TMMBREntry → Except RtcpError (List ℕ)
  | [] => .ok []
  | e :: rest =>
    match putBitrate e.Bitrate with
    | .error err => .error err
    | .ok br =>
      match TMMBR.entriesBytes rest with
      | .error err => .error err
      | .ok bs => .ok (putUint32 e.MediaSSRC ++ [br.1, br.2.1, br.2.2, 0] ++ bs)

/-- `TMMBR.Marshal`: header bytes (external codec), sender SSRC, the
always-zero media SSRC word, then the per-entry FCI blocks into the
exactly-sized zeroed buffer. -/
def TMMBR.Marshal (p : TMMBR) : Except RtcpError (List ℕ) :=
  match p.Header.Marshal with
  | .error e => .error e
  | .ok hb =>
    match TMMBR.entriesBytes p.Entries with
    | .error e => .error e
    | .ok eb => .ok (hb ++ putUint32 p.SenderSSRC ++ putUint32 0 ++ eb)

/-- The entry-reading loop of `TMMBR.Unmarshal`: `entryCount` iterations,
entry `i` at body offset `ssrcLength*2 + i*(2*ssrcLength) = 8 + 8*i`,
reading a 4-byte media SSRC then the 3 bitrate bytes; `none` is the Go
panic of the first out-of-range access. -/
def TMMBR.readEntries (body : List ℕ) : ℕ → ℕ → Option (List TMMBREntry)
  | 0, _ => some []
  | count + 1, i =>
    let offset := ssrcLength * 2 + i * (2 * ssrcLength)
    match readUint32 body offset,
          body[offset + 4]?, body[offset + 5]?, body[offset + 6]? with
    | some media, some a, some b, some c =>
      match TMMBR.readEntries body count (i + 1) with
      | some rest => some (⟨media, loadBitrate a b c⟩ :: rest)
      | none => none
    | _, _, _, _ => none

/-- `TMMBR.Unmarshal`.  `expectedSize := int((header.Length + 1) * 4)` and
`entryCount := int((header.Length - 2) / 2)` are computed on the Go
`uint16`, hence the `% 2^16` (the subtraction wraps for `Length < 2`).
`.panic` is an out-of-range access in the entry loop. -/
def TMMBR.Unmarshal (rawPacket : List ℕ) : UnmarshalResult TMMBR :=
  if rawPacket.length < headerLength + ssrcLength * 2 then .fail .packetTooShort
  else
    match Header.Unmarshal rawPacket with
    | .error e => .fail e
    | .ok header =>
      let expectedSize := (header.Length + 1) * 4 % 2 ^ 16
      if rawPacket.length < expectedSize then .fail .badLength
      else if ¬(header.PacketType = TypeTransportSpecificFeedback ∧
                header.Count = FormatTMMBR) then .fail .wrongType
      else
        let body := rawPacket.drop headerLength
        match readUint32 body 0 with
        | none => .panic
        | some senderSSRC =>
          let entryCount := (header.Length + (2 ^ 16 - 2)) % 2 ^ 16 / 2
          match TMMBR.readEntries body entryCount 0 with
          | none => .panic
          | some entries => .ok ⟨senderSSRC, entries⟩

/-- `TMMBN.MarshalSize`: `headerLength + ssrcLength*2 + len(Entries)*(2*ssrcLength)`. -/
def TMMBN.MarshalSize (p : TMMBN) : ℕ :=
  headerLength + ssrcLength * 2 + p.Entries.length * (2 * ssrcLength)

/-- `TMMBN.Header`: count `FormatTMMBN`, type 205, `uint16(MarshalSize/4 - 1)`. -/
def TMMBN.Header (p : TMMBN) : Header :=
  ⟨false, FormatTMMBN, TypeTransportSpecificFeedback, (p.MarshalSize / 4 - 1) % 2 ^ 16⟩

/-- The FCI-writing loop of `TMMBN.Marshal` (same layout as TMMBR's). -/
def TMMBN.entriesBytes : List TMMBNEntry → Except RtcpError (List ℕ)
  | [] => .ok []
  | e :: rest =>
    match putBitrate e.Bitrate with
    | .error err => .error err
    | .ok br =>
      match TMMBN.entriesBytes rest with
      | .error err => .error err
      | .ok bs => .ok (putUint32 e.MediaSSRC ++ [br.1, br.2.1, br.2.2, 0] ++ bs)

/-- `TMMBN.Marshal`: header bytes, sender SSRC, zero media SSRC word, then
the per-entry FCI blocks. -/
def TMMBN.Marshal (p : TMMBN) : Except RtcpError (List ℕ) :=
  match p.Header.Marshal with
  | .error e => .error e
  | .ok hb =>
    match TMMBN.entriesBytes p.Entries with
    | .error e => .error e
    | .ok eb => .ok (hb ++ putUint32 p.SenderSSRC ++ putUint32 0 ++ eb)

/-- The entry-reading loop of `TMMBN.Unmarshal` (same layout as TMMBR's). -/
def TMMBN.readEntries (body : List ℕ) : ℕ → ℕ → Option (List TMMBNEntry)
  | 0, _ => some []
  | count + 1, i =>
    let offset := ssrcLength * 2 + i * (2 * ssrcLength)
    match readUint32 body offset,
          body[offset + 4]?, body[offset + 5]?, body[offset + 6]? with
    | some media, some a, some b, some c =>
      match TMMBN.readEntries body count (i + 1) with
      | some rest => some (⟨media, loadBitrate a b c⟩ :: rest)
      | none => none
    | _, _, _, _ => none

/-- `TMMBN.Unmarshal`; see `TMMBR.Unmarshal` for the `uint16` arithmetic
and the panic modelling. -/
def TMMBN.Unmarshal (rawPacket : List ℕ) : UnmarshalResult TMMBN :=
  if rawPacket.length < headerLength + ssrcLength * 2 then .fail .packetTooShort
  else
    match Header.Unmarshal rawPacket with
    | .error e => .fail e
    | .ok header =>
      let expectedSize := (header.Length + 1) * 4 % 2 ^ 16
      if rawPacket.length < expectedSize then .fail .badLength
      else if ¬(header.PacketType = TypeTransportSpecificFeedback ∧
                header.Count = FormatTMMBN) then .fail .wrongType
      else
        let body := rawPacket.drop headerLength
        match readUint32 body 0 with
        | none => .panic
        | some senderSSRC =>
          let entryCount := (header.Length + (2 ^ 16 - 2)) % 2 ^ 16 / 2
          match TMMBN.readEntries body entryCount 0 with
          | none => .panic
          | some entries => .ok ⟨senderSSRC, entries⟩

/-- Well-formedness of a REMB packet as the Go type system and the wire
format bound it: `uint32` fields, at most 255 destination SSRCs (the
one-byte Num SSRC field), and a bitrate that is an actual non-negative
finite `float32` value. -/
def ReceiverEstimatedMaximumBitrate.WF (p : ReceiverEstimatedMaximumBitrate) : Prop :=
  p.SenderSSRC < 2 ^ 32 ∧ (∀ s ∈ p.SSRCs, s < 2 ^ 32) ∧ p.SSRCs.length ≤ 255 ∧
    ∃ v : ℚ, p.Bitrate = F32.fin v ∧ 0 ≤ v

/-- Well-formedness of a TMMBR packet: `uint32` fields, an entry count
small enough for the 16-bit length field (`2 + 2*count ≤ 0xFFFF`), and
non-negative finite bitrates. -/
def TMMBR.WF (p : TMMBR) : Prop :=
  p.SenderSSRC < 2 ^ 32 ∧ (∀ en ∈ p.Entries, en.MediaSSRC < 2 ^ 32) ∧
    p.Entries.length ≤ 32766 ∧
    ∀ en ∈ p.Entries, ∃ v : ℚ, en.Bitrate = F32.fin v ∧ 0 ≤ v

/-- Well-formedness of a TMMBN packet: `uint32` fields, an entry count
small enough for the 16-bit length field, and non-negative finite
bitrates. -/
def TMMBN.WF (p : TMMBN) : Prop :=
  p.SenderSSRC < 2 ^ 32 ∧ (∀ en ∈ p.Entries, en.MediaSSRC < 2 ^ 32) ∧
    p.Entries.length ≤ 32766 ∧
    ∀ en ∈ p.Entries, ∃ v : ℚ, en.Bitrate = F32.fin v ∧ 0 ≤ v

/-- Floor of the base-2 logarithm, fuel-indexed (helper for the binary32
rounding step below; fuel 400 covers every value that can arise there). -/
def log2floor : ℕ → ℕ → ℕ
  | 0, _ => 0
  | fuel + 1, n => if 2 ≤ n then log2floor fuel (n / 2) + 1 else 0

/-- Round-to-nearest, ties-to-even of the fraction `num/den`. -/
def roundHalfEven (num den : ℕ) : ℕ :=
  let q := num / den
  let r := num % den
  if 2 * r < den then q
  else if den < 2 * r then q + 1
  else if q % 2 = 0 then q else q + 1

/-- IEEE 754 binary32 rounding (round-to-nearest, ties-to-even) of a
positive rational: choose the exponent `e` with `2^e ≤ q < 2^(e+1)`
(clamped at the subnormal boundary `-126`), round the 24-bit significand,
propagate a carry, and overflow to infinity beyond `2^127` scale.  Used to
model the one inexact float32 operation the source performs: the division
by 1000 inside `bitrateUnit`. -/
def roundPosF32 (q : ℚ) : F32 :=
  let n := q.num.toNat
  let d := q.den
  let e0 : ℤ := (log2floor 400 (n * 2 ^ 200 / d) : ℤ) - 200
  let e : ℤ := max e0 (-126)
  let shift : ℤ := 23 - e
  let m := if 0 ≤ shift then roundHalfEven (n * 2 ^ shift.toNat) d
           else roundHalfEven n (d * 2 ^ (-shift).toNat)
  if m = 0 then F32.fin 0
  else
    let me : ℕ × ℤ := if m = 2 ^ 24 then (2 ^ 23, e + 1) else (m, e)
    if 127 < me.2 then F32.inf false
    else F32.fin (if 23 ≤ me.2 then (me.1 : ℚ) * 2 ^ (me.2 - 23).toNat
                  else (me.1 : ℚ) / 2 ^ ((23 : ℤ) - me.2).toNat)

/-- Go `bitrate / 1000.0` on a float32: correctly rounded binary32
division.  Exact on NaN, infinities and zero; otherwise the rounding of
the exact quotient. -/
def fdiv1000 : F32 → F32
  | .nan => .nan
  | .inf s => .inf s
  | .fin v =>
    if v = 0 then .fin 0
    else if 0 < v then roundPosF32 (v / 1000)
    else
      match roundPosF32 (-v / 1000) with
      | .fin w => .fin (-w)
      | .inf _ => .inf true
      | .nan => .nan

/-- The unit table of `bitrateUnit`. -/
def bitUnits : List String := ["b", "Kb", "Mb", "Gb", "Tb", "Pb", "Eb"]

/-- The dividing loop of `bitrateUnit`:
`for bitrate >= 1000.0 && powers < len(bitUnits) { bitrate /= 1000.0; powers++ }`.
Fuel-indexed; `powers` strictly increases and is capped at 7 by the loop
condition, so fuel 8 always reaches the exit. -/
def buLoop : ℕ → F32 → ℕ → ℕ
  | 0, _, powers => powers
  | fuel + 1, bitrate, powers =>
    if bitrate.geQ 1000 = true ∧ powers < bitUnits.length then
      buLoop fuel (fdiv1000 bitrate) (powers + 1)
    else powers

/-- The `bitrateUnit` helper: auto-scale the bitrate and index the unit
table with the final `powers` value.  `bitUnits[powers]` in Go panics when
`powers` is out of range; the panic is modelled as `none`. -/
def bitrateUnit (bitrate : F32) : Option String :=
  bitUnits[buLoop 8 bitrate 0]?

/-- Floor of a rational is a lower bound. -/
theorem rat_floor_le (r : ℚ) : (r.floor : ℚ) ≤ r := Rat.le_floor.mp le_rfl

/-- A rational is below its floor plus one. -/
theorem rat_lt_floor_add_one (r : ℚ) : r < r.floor + 1 := by
  by_contra h
  push_neg at h
  have h2 : ((r.floor + 1 : ℤ) : ℚ) ≤ r := by push_cast; linarith
  have := Rat.le_floor.mpr h2
  omega

/-- Packing `byte(exp<<2) | byte(mantissa>>16)` for a 6-bit exponent and a
2-bit top mantissa chunk is addition of disjoint bit ranges. -/
theorem lor_byte0 : ∀ e < 64, ∀ t < 4, e * 4 % 256 ||| t % 256 = e * 4 + t := by decide

/-- Composing `(uint32(exp) << 23) | (mantissa & 0x7FFFFF)` is addition of
disjoint bit ranges. -/
theorem lor_exp_mantissa (a b : ℕ) (hb : b < 2 ^ 23) :
    a * 2 ^ 23 ||| b = a * 2 ^ 23 + b := by
  rw [Nat.mul_comm a, ← Nat.mul_add_lt_is_or hb, Nat.mul_comm]

/-- Behaviour of the `putBitrate` halving loop: with enough fuel it divides
its argument by `2^exp` into `[0, 2^18)`, and a nonzero exponent is chosen
only when the final value is still `≥ 2^17` (the loop halves exactly until
the value first drops below `2^18`). -/
theorem encLoop_spec (fuel : ℕ) :
    ∀ v : ℚ, 0 ≤ v → v < 2 ^ (18 + fuel) →
      (encLoop fuel v).1 = v / 2 ^ (encLoop fuel v).2 ∧
      (encLoop fuel v).1 < 2 ^ 18 ∧
      ((encLoop fuel v).2 = 0 ∨ 2 ^ 17 ≤ (encLoop fuel v).1) := by
  induction fuel with
  | zero =>
    intro v h0 h
    refine ⟨by simp [encLoop], by simpa [encLoop] using h, Or.inl rfl⟩
  | succ n ih =>
    intro v h0 h
    by_cases hge : (2 : ℚ) ^ 18 ≤ v
    · have h2 : v / 2 < 2 ^ (18 + n) := by
        rw [div_lt_iff (by norm_num : (0:ℚ) < 2)]
        calc v < 2 ^ (18 + (n + 1)) := h
        _ = 2 ^ (18 + n) * 2 := by ring
      obtain ⟨e1, e2, e3⟩ := ih (v / 2) (by positivity) h2
      have hunf : encLoop (n + 1) v =
          ((encLoop n (v / 2)).1, (encLoop n (v / 2)).2 + 1) := by
        simp [encLoop, hge]
      rw [hunf]
      refine ⟨?_, e2, Or.inr ?_⟩
      · rw [e1, pow_succ, div_div]
        ring_nf
      · rcases e3 with h3 | h3
        · have e1' : (encLoop n (v / 2)).1 = v / 2 := by
            rw [e1, h3]; simp
          rw [e1']
          calc (2 : ℚ) ^ 17 = 2 ^ 18 / 2 := by norm_num
          _ ≤ v / 2 := by linarith
        · exact h3
    · have hunf : encLoop (n + 1) v = (v, 0) := by simp [encLoop, hge]
      rw [hunf]
      exact ⟨by simp, by push_neg at hge; simpa using hge, Or.inl rfl⟩

/-- Exponent bound for the halving loop: a value below `2^18 * 2^k` never
drives the exponent above `k`. -/
theorem encLoop_exp_le (fuel k : ℕ) (v : ℚ) (h0 : 0 ≤ v)
    (hf : v < 2 ^ (18 + fuel)) (hk : v < 2 ^ 18 * 2 ^ k) :
    (encLoop fuel v).2 ≤ k := by
  obtain ⟨e1, _, e3⟩ := encLoop_spec fuel v h0 hf
  rcases e3 with h | h
  · omega
  · by_contra hgt
    push_neg at hgt
    rw [e1] at h
    rw [le_div_iff (by positivity : (0:ℚ) < 2 ^ (encLoop fuel v).2)] at h
    have hpow : (2 : ℚ) ^ 18 * 2 ^ k ≤ 2 ^ 17 * 2 ^ (encLoop fuel v).2 := by
      have : (18 + k) ≤ 17 + (encLoop fuel v).2 := by omega
      calc (2 : ℚ) ^ 18 * 2 ^ k = 2 ^ (18 + k) := by rw [pow_add]
      _ ≤ 2 ^ (17 + (encLoop fuel v).2) := by
          exact pow_le_pow_right (by norm_num) this
      _ = 2 ^ 17 * 2 ^ (encLoop fuel v).2 := by rw [pow_add]
    linarith

/-- On a non-negative finite value below the clamping ceiling, `putBitrate`
succeeds and packs the exponent and floored mantissa produced by the
halving loop. -/
theorem putBitrate_fin_eq (v : ℚ) (h0 : 0 ≤ v) (hlt : v < bitratemax) :
    putBitrate (F32.fin v) =
      .ok ((encLoop 256 v).2 * 4 + (encLoop 256 v).1.floor.toNat / 2 ^ 16,
           (encLoop 256 v).1.floor.toNat / 2 ^ 8 % 256,
           (encLoop 256 v).1.floor.toNat % 256) := by
  have hmaxlt : ¬ bitratemax ≤ v := not_le.mpr hlt
  have hneg : ¬ v < 0 := not_lt.mpr h0
  have hfuel : v < 2 ^ (18 + 256) := lt_trans hlt (by norm_num [bitratemax])
  have hexp : (encLoop 256 v).2 ≤ 63 :=
    encLoop_exp_le 256 63 v h0 hfuel (lt_trans hlt (by norm_num [bitratemax]))
  obtain ⟨_, e2, _⟩ := encLoop_spec 256 v h0 hfuel
  have hm : (encLoop 256 v).1.floor.toNat < 2 ^ 18 := by
    have hfl : ((encLoop 256 v).1.floor : ℚ) ≤ (encLoop 256 v).1 := rat_floor_le _
    have hzfl : (encLoop 256 v).1.floor < 2 ^ 18 := by
      by_contra hc
      push_neg at hc
      have hcast : ((2 ^ 18 : ℤ) : ℚ) ≤ ((encLoop 256 v).1.floor : ℚ) := by
        exact_mod_cast hc
      push_cast at hcast
      linarith
    omega
  have hnotexp : ¬ (2 ^ 6 ≤ (encLoop 256 v).2) := by omega
  simp only [putBitrate, F32.geQ, decide_eq_true_eq, hmaxlt, if_false, F32.lt0,
    hneg, F32.floorNat, hnotexp]
  rw [lor_byte0 _ (by omega) _ (by omega)]

/-- The `mantissa & 0x800000` loop test, for a mantissa below `2^24`, is
exactly the comparison with `2^23`. -/
theorem and_bit23_eq_zero_iff (m : ℕ) (h : m < 2 ^ 24) :
    m &&& 0x800000 = 0 ↔ m < 2 ^ 23 := by
  have h8 : (0x800000 : ℕ) = 2 ^ 23 := by norm_num
  rw [h8, Nat.and_two_pow, Nat.testBit_to_div_mod]
  constructor
  · intro hz
    by_contra hc
    push_neg at hc
    have hdiv : m / 2 ^ 23 = 1 := by omega
    rw [hdiv] at hz
    norm_num at hz
  · intro hlt
    have hdiv : m / 2 ^ 23 = 0 := Nat.div_eq_of_lt hlt
    rw [hdiv]
    norm_num

/-- Behaviour of the normalisation loop of `loadBitrate`: starting from a
nonzero mantissa below `2^24` with enough fuel to reach bit 23, it doubles
the mantissa `k` times into `[2^23, 2^24)` while decrementing the exponent
`k` times. -/
theorem normLoop_spec (fuel : ℕ) :
    ∀ eb m : ℕ, 1 ≤ m → m < 2 ^ 24 → 2 ^ 23 ≤ m * 2 ^ fuel →
      ∃ k, k ≤ fuel ∧ normLoop fuel eb m = (eb - k, m * 2 ^ k) ∧
        2 ^ 23 ≤ m * 2 ^ k ∧ m * 2 ^ k < 2 ^ 24 := by
  induction fuel with
  | zero =>
    intro eb m h1 h2 h3
    exact ⟨0, le_rfl, by simp [normLoop], by simpa using h3, by simpa using h2⟩
  | succ n ih =>
    intro eb m h1 h2 h3
    by_cases hbit : m &&& 0x800000 = 0
    · have hmlt : m < 2 ^ 23 := (and_bit23_eq_zero_iff m h2).mp hbit
      have h3' : 2 ^ 23 ≤ m * 2 * 2 ^ n := by
        have : m * 2 ^ (n + 1) = m * 2 * 2 ^ n := by ring
        omega
      obtain ⟨k, hk, he, hge, hltk⟩ := ih (eb - 1) (m * 2) (by omega) (by omega) h3'
      refine ⟨k + 1, by omega, ?_, ?_, ?_⟩
      · have hunf : normLoop (n + 1) eb m = normLoop n (eb - 1) (m * 2) := by
          simp [normLoop, hbit]
        rw [hunf, he]
        have hk1 : eb - 1 - k = eb - (k + 1) := by omega
        have hk2 : m * 2 * 2 ^ k = m * 2 ^ (k + 1) := by ring
        rw [hk1, hk2]
      · have : m * 2 * 2 ^ k = m * 2 ^ (k + 1) := by ring
        omega
      · have : m * 2 * 2 ^ k = m * 2 ^ (k + 1) := by ring
        omega
    · have hge23 : 2 ^ 23 ≤ m := by
        rcases Nat.lt_or_ge m (2 ^ 23) with h' | h'
        · exact absurd ((and_bit23_eq_zero_iff m h2).mpr h') hbit
        · exact h'
      exact ⟨0, Nat.zero_le _, by simp [normLoop, hbit], by simpa using hge23,
        by simpa using h2⟩

/-- Decoding the three bytes produced by packing a 6-bit exponent `e` and
an 18-bit mantissa `m` yields exactly `m * 2^e` (or `2^(e+23)` in the
degenerate zero-mantissa case, where the biased exponent alone survives the
bit composition). -/
theorem loadBitrate_pack (e m : ℕ) (he : e ≤ 63) (hm : m < 2 ^ 18) :
    loadBitrate (e * 4 + m / 2 ^ 16) (m / 2 ^ 8 % 256) (m % 256) =
      (if m = 0 then F32.fin (2 ^ (e + 23)) else F32.fin ((m : ℚ) * 2 ^ e)) := by
  have hexp : (e * 4 + m / 2 ^ 16) / 4 + 127 + 23 = e + 150 := by omega
  have hmant : (e * 4 + m / 2 ^ 16) % 4 * 2 ^ 16 + m / 2 ^ 8 % 256 * 2 ^ 8 + m % 256
      = m := by omega
  simp only [loadBitrate, hexp, hmant]
  by_cases hm0 : m = 0
  · subst hm0
    have hmod : (e + 150) % 256 = e + 150 := Nat.mod_eq_of_lt (by omega)
    simp only [if_pos rfl, ne_eq, not_true_eq_false, if_false, ite_false, hmod]
    have hand : (0 : ℕ) &&& 0x7FFFFF = 0 := Nat.zero_and _
    rw [hand, Nat.or_zero]
    simp only [F32.frombits]
    have hsign : (e + 150) * 2 ^ 23 / 2 ^ 31 % 2 = 0 := by
      have : (e + 150) * 2 ^ 23 < 2 ^ 31 := by
        calc (e + 150) * 2 ^ 23 ≤ 213 * 2 ^ 23 := by
              exact Nat.mul_le_mul_right _ (by omega)
        _ < 2 ^ 31 := by norm_num
      rw [Nat.div_eq_of_lt this]
    have hE : (e + 150) * 2 ^ 23 / 2 ^ 23 % 256 = e + 150 := by
      rw [Nat.mul_div_cancel _ (by norm_num)]
      exact Nat.mod_eq_of_lt (by omega)
    have hM : (e + 150) * 2 ^ 23 % 2 ^ 23 = 0 := Nat.mul_mod_left _ _
    rw [hsign, hE, hM]
    have h255 : ¬ (e + 150 = 255) := by omega
    have h0 : ¬ (e + 150 = 0) := by omega
    have h150 : 150 ≤ e + 150 := by omega
    simp only [h255, if_false, h0, h150, if_true, ite_false, ite_true]
    try rw [if_neg (by norm_num : ¬ (0 : ℕ) = 1)]
    congr 1
    have hsub : e + 150 - 150 = e := by omega
    rw [hsub, pow_add]
    push_cast
    ring
  · have h1m : 1 ≤ m := by omega
    have hm24 : m < 2 ^ 24 := by omega
    have hfuel : 2 ^ 23 ≤ m * 2 ^ 24 := by
      calc (2 : ℕ) ^ 23 ≤ 2 ^ 24 := by norm_num
      _ = 1 * 2 ^ 24 := by ring
      _ ≤ m * 2 ^ 24 := Nat.mul_le_mul_right _ h1m
    obtain ⟨k, hk24, hnorm, hge, hlt⟩ := normLoop_spec 24 (e + 150) m h1m hm24 hfuel
    have hk23 : k ≤ 23 := by
      by_contra hc
      push_neg at hc
      have h24 : k = 24 := by omega
      subst h24
      have : 2 ^ 24 ≤ m * 2 ^ 24 := by
        calc (2 : ℕ) ^ 24 = 1 * 2 ^ 24 := by ring
        _ ≤ m * 2 ^ 24 := Nat.mul_le_mul_right _ h1m
      omega
    simp only [if_neg hm0, ne_eq, hm0, not_false_eq_true, if_true, ite_true, hnorm]
    have hamod : (e + 150 - k) % 256 = e + 150 - k := Nat.mod_eq_of_lt (by omega)
    have hand : m * 2 ^ k &&& 0x7FFFFF = m * 2 ^ k % 2 ^ 23 := by
      have : (0x7FFFFF : ℕ) = 2 ^ 23 - 1 := by norm_num
      rw [this, Nat.and_pow_two_sub_one_eq_mod]
    have hrem : m * 2 ^ k % 2 ^ 23 = m * 2 ^ k - 2 ^ 23 := by omega
    simp only [hamod, hand]
    rw [lor_exp_mantissa _ _ (Nat.mod_lt _ (by norm_num))]
    simp only [F32.frombits]
    have habound : e + 150 - k ≤ 213 := by omega
    have halow : 127 ≤ e + 150 - k := by omega
    have hsign : ((e + 150 - k) * 2 ^ 23 + m * 2 ^ k % 2 ^ 23) / 2 ^ 31 % 2 = 0 := by
      have hlt31 : (e + 150 - k) * 2 ^ 23 + m * 2 ^ k % 2 ^ 23 < 2 ^ 31 := by
        have hb : m * 2 ^ k % 2 ^ 23 < 2 ^ 23 := Nat.mod_lt _ (by norm_num)
        calc (e + 150 - k) * 2 ^ 23 + m * 2 ^ k % 2 ^ 23
            < (e + 150 - k) * 2 ^ 23 + 2 ^ 23 := by omega
        _ = (e + 150 - k + 1) * 2 ^ 23 := by ring
        _ ≤ 214 * 2 ^ 23 := Nat.mul_le_mul_right _ (by omega)
        _ < 2 ^ 31 := by norm_num
      rw [Nat.div_eq_of_lt hlt31]
    have hE : ((e + 150 - k) * 2 ^ 23 + m * 2 ^ k % 2 ^ 23) / 2 ^ 23 % 256
        = e + 150 - k := by
      have hb : m * 2 ^ k % 2 ^ 23 < 2 ^ 23 := Nat.mod_lt _ (by norm_num)
      have hdiv : ((e + 150 - k) * 2 ^ 23 + m * 2 ^ k % 2 ^ 23) / 2 ^ 23
          = e + 150 - k := by
        omega
      rw [hdiv]
      exact Nat.mod_eq_of_lt (by omega)
    have hM : ((e + 150 - k) * 2 ^ 23 + m * 2 ^ k % 2 ^ 23) % 2 ^ 23
        = m * 2 ^ k % 2 ^ 23 := by
      have hb : m * 2 ^ k % 2 ^ 23 < 2 ^ 23 := Nat.mod_lt _ (by norm_num)
      rw [Nat.mul_comm, Nat.mul_add_mod, Nat.mod_eq_of_lt hb]
    rw [hsign, hE, hM]
    have h255 : ¬ (e + 150 - k = 255) := by omega
    have h0 : ¬ (e + 150 - k = 0) := by omega
    simp only [h255, if_false, h0, ite_false]
    have hval : ((2 ^ 23 + m * 2 ^ k % 2 ^ 23 : ℕ) : ℚ) = ((m * 2 ^ k : ℕ) : ℚ) := by
      congr 1
      omega
    by_cases hke : k ≤ e
    · have h150 : 150 ≤ e + 150 - k := by omega
      have hsub : e + 150 - k - 150 = e - k := by omega
      simp only [h150, if_true, ite_true, hval, hsub]
      push_cast
      rw [mul_assoc, ← pow_add]
      have hke' : k + (e - k) = e := by omega
      rw [hke']
    · have h150 : ¬ (150 ≤ e + 150 - k) := by omega
      have hsub : 150 - (e + 150 - k) = k - e := by omega
      simp only [h150, if_false, ite_false, hval, hsub]
      try rw [if_neg (by norm_num : ¬ (0 : ℕ) = 1)]
      congr 1
      rw [div_eq_iff (by positivity : (2 : ℚ) ^ (k - e) ≠ 0)]
      push_cast
      rw [mul_assoc, ← pow_add]
      have hke' : e + (k - e) = k := by omega
      rw [hke']

/-- The floored mantissa produced by the halving loop fits the 18-bit field. -/
theorem encLoop_floor_lt (v : ℚ) (h0 : 0 ≤ v) (hfuel : v < 2 ^ (18 + 256)) :
    (encLoop 256 v).1.floor.toNat < 2 ^ 18 := by
  obtain ⟨_, e2, _⟩ := encLoop_spec 256 v h0 hfuel
  have hfl : ((encLoop 256 v).1.floor : ℚ) ≤ (encLoop 256 v).1 := rat_floor_le _
  have hzfl : (encLoop 256 v).1.floor < 2 ^ 18 := by
    by_contra hc
    push_neg at hc
    have hcast : ((2 ^ 18 : ℤ) : ℚ) ≤ ((encLoop 256 v).1.floor : ℚ) := by
      exact_mod_cast hc
    push_cast at hcast
    linarith
  omega

/-- Saturation: any value that compares `≥ bitratemax` (including `+Inf`)
is clamped and encodes to the all-ones byte pattern. -/
theorem putBitrate_saturates (x : F32) (h : x.geQ bitratemax = true) :
    putBitrate x = .ok (255, 255, 255) := by
  simp only [putBitrate, h, if_true]
  decide

/-- The encoder succeeds on every bitrate that does not compare `< 0`. -/
theorem putBitrate_ok_of_not_neg (x : F32) (h : x.lt0 = false) :
    ∃ t, putBitrate x = .ok t := by
  cases x with
  | nan => exact ⟨(0, 0, 0), by decide⟩
  | inf s =>
    cases s with
    | false => exact ⟨(255, 255, 255), putBitrate_saturates _ (by decide)⟩
    | true => simp [F32.lt0] at h
  | fin v =>
    have hv : 0 ≤ v := by
      simp only [F32.lt0, decide_eq_false_iff_not, not_lt] at h
      exact h
    by_cases hmax : bitratemax ≤ v
    · exact ⟨(255, 255, 255), putBitrate_saturates _ (by simp [F32.geQ, hmax])⟩
    · push_neg at hmax
      exact ⟨_, putBitrate_fin_eq v hv hmax⟩

/-- The only error the encoder ever returns is InvalidBitrate. -/
theorem putBitrate_error_invalid (x : F32) (e : RtcpError)
    (h : putBitrate x = .error e) : e = .invalidBitrate := by
  simp only [putBitrate] at h
  repeat' split at h
  all_goals simp_all

/-- A bitrate that compares `< 0` is rejected with InvalidBitrate (clamping
cannot fire on it, and the sign check precedes everything else). -/
theorem putBitrate_neg (x : F32) (h : x.lt0 = true) :
    putBitrate x = .error .invalidBitrate := by
  cases x with
  | nan => simp [F32.lt0] at h
  | inf s =>
    cases s with
    | false => simp [F32.lt0] at h
    | true => decide
  | fin v =>
    have hv : v < 0 := by
      simpa [F32.lt0] using h
    have hclamp : (F32.fin v).geQ bitratemax = false := by
      simp only [F32.geQ, decide_eq_false_iff_not, not_le]
      calc v < 0 := hv
      _ < bitratemax := by norm_num [bitratemax]
    simp [putBitrate, hclamp, F32.lt0, hv]

/-- Quantisation of a non-negative finite bitrate below the ceiling:
encode-then-decode yields `⌊v/2^e⌋ * 2^e` with `e` the loop's exponent
(or the degenerate `2^(e+23)` when the floored mantissa is zero). -/
theorem quantizeBitrate_fin (v : ℚ) (h0 : 0 ≤ v) (hlt : v < bitratemax) :
    quantizeBitrate (F32.fin v) =
      (if (encLoop 256 v).1.floor.toNat = 0
       then F32.fin (2 ^ ((encLoop 256 v).2 + 23))
       else F32.fin (((encLoop 256 v).1.floor.toNat : ℚ) * 2 ^ (encLoop 256 v).2)) := by
  have hfuel : v < 2 ^ (18 + 256) := lt_trans hlt (by norm_num [bitratemax])
  have hexp : (encLoop 256 v).2 ≤ 63 :=
    encLoop_exp_le 256 63 v h0 hfuel (lt_trans hlt (by norm_num [bitratemax]))
  have hm : (encLoop 256 v).1.floor.toNat < 2 ^ 18 := encLoop_floor_lt v h0 hfuel
  simp only [quantizeBitrate, putBitrate_fin_eq v h0 hlt]
  exact loadBitrate_pack _ _ hexp hm

/-- Header marshalling for the TMMBR packet always succeeds (count 3 fits
the 5-bit field). -/
theorem tmmbr_header_marshal_ok (p : TMMBR) :
    p.Header.Marshal = .ok ([131] ++ [205] ++
      putUint16 ((p.MarshalSize / 4 - 1) % 2 ^ 16 % 2 ^ 16)) := by
  simp [Header.Marshal, TMMBR.Header, FormatTMMBR, TypeTransportSpecificFeedback]

/-- Header marshalling for the TMMBN packet always succeeds (count 4 fits
the 5-bit field). -/
theorem tmmbn_header_marshal_ok (p : TMMBN) :
    p.Header.Marshal = .ok ([132] ++ [205] ++
      putUint16 ((p.MarshalSize / 4 - 1) % 2 ^ 16 % 2 ^ 16)) := by
  simp [Header.Marshal, TMMBN.Header, FormatTMMBN, TypeTransportSpecificFeedback]

/-- The TMMBR FCI loop surfaces InvalidBitrate whenever some entry's
bitrate compares `< 0` (an earlier entry can only fail with the same
error, since the encoder has no other error). -/
theorem tmmbr_entriesBytes_err (l : List TMMBREntry)
    (hx : ∃ en ∈ l, en.Bitrate.lt0 = true) :
    TMMBR.entriesBytes l = .error .invalidBitrate := by
  induction l with
  | nil => simp at hx
  | cons e rest ih =>
    obtain ⟨en, hmem, hl⟩ := hx
    rcases List.mem_cons.mp hmem with heq | hmem'
    · subst heq
      simp [TMMBR.entriesBytes, putBitrate_neg _ hl]
    · cases hput : putBitrate e.Bitrate with
      | error err =>
        have herr := putBitrate_error_invalid _ _ hput
        subst herr
        simp [TMMBR.entriesBytes, hput]
      | ok br =>
        have hrest := ih ⟨en, hmem', hl⟩
        simp [TMMBR.entriesBytes, hput, hrest]

/-- The TMMBN FCI loop surfaces InvalidBitrate whenever some entry's
bitrate compares `< 0`. -/
theorem tmmbn_entriesBytes_err (l : List TMMBNEntry)
    (hx : ∃ en ∈ l, en.Bitrate.lt0 = true) :
    TMMBN.entriesBytes l = .error .invalidBitrate := by
  induction l with
  | nil => simp at hx
  | cons e rest ih =>
    obtain ⟨en, hmem, hl⟩ := hx
    rcases List.mem_cons.mp hmem with heq | hmem'
    · subst heq
      simp [TMMBN.entriesBytes, putBitrate_neg _ hl]
    · cases hput : putBitrate e.Bitrate with
      | error err =>
        have herr := putBitrate_error_invalid _ _ hput
        subst herr
        simp [TMMBN.entriesBytes, hput]
      | ok br =>
        have hrest := ih ⟨en, hmem', hl⟩
        simp [TMMBN.entriesBytes, hput, hrest]

/-- C2 (counterexample): the claim "for every non-negative float32 below
the ceiling, decode(encode(v)) ≤ v" fails at `v = 0`: the encoder emits
mantissa 0 / exponent 0, and the decoder turns the zero mantissa into the
bit pattern of `2^23 = 8388608`, which is not `≤ 0`. -/
theorem C2_counterexample :
    quantizeBitrate (F32.fin 0) = F32.fin (2 ^ 23) ∧ ¬ ((2 : ℚ) ^ 23 ≤ 0) := by
  constructor
  · decide
  · norm_num

/-- C2 (amended): for every value `1 ≤ v` strictly below the saturation
ceiling `0x3FFFF * 2^63` (so that the floored mantissa is nonzero),
`putBitrate` succeeds and `loadBitrate` of the produced bytes yields
`d ≤ v` with `v - d < 2^e`, where `e` is the exponent chosen by the
encoder's halving loop. -/
theorem C2_theorem (v : ℚ) (h1 : 1 ≤ v) (h2 : v < 0x3FFFF * 2 ^ 63) :
    ∃ b0 b1 b2 : ℕ, putBitrate (F32.fin v) = .ok (b0, b1, b2) ∧
      ∃ d : ℚ, loadBitrate b0 b1 b2 = F32.fin d ∧
        d ≤ v ∧ v - d < 2 ^ (encLoop 256 v).2 := by
  have h0 : (0 : ℚ) ≤ v := le_trans zero_le_one h1
  have hlt : v < bitratemax := h2
  have hfuel : v < 2 ^ (18 + 256) := lt_trans hlt (by norm_num [bitratemax])
  have hexp : (encLoop 256 v).2 ≤ 63 :=
    encLoop_exp_le 256 63 v h0 hfuel (lt_trans hlt (by norm_num [bitratemax]))
  have hm18 : (encLoop 256 v).1.floor.toNat < 2 ^ 18 := encLoop_floor_lt v h0 hfuel
  obtain ⟨e1, e2, e3⟩ := encLoop_spec 256 v h0 hfuel
  have hv1 : 1 ≤ (encLoop 256 v).1 := by
    rcases e3 with h | h
    · rw [e1, h]
      simpa using h1
    · calc (1 : ℚ) ≤ 2 ^ 17 := by norm_num
      _ ≤ _ := h
  have hfl1 : 1 ≤ (encLoop 256 v).1.floor := Rat.le_floor.mpr (by exact_mod_cast hv1)
  have hmne : (encLoop 256 v).1.floor.toNat ≠ 0 := by omega
  have hcast : ((encLoop 256 v).1.floor.toNat : ℚ) = ((encLoop 256 v).1.floor : ℚ) := by
    exact_mod_cast Int.toNat_of_nonneg (by omega)
  have h2e : (0 : ℚ) < 2 ^ (encLoop 256 v).2 := by positivity
  have hveq : v = (encLoop 256 v).1 * 2 ^ (encLoop 256 v).2 := by
    rw [e1]
    field_simp
  refine ⟨_, _, _, putBitrate_fin_eq v h0 hlt, ?_⟩
  rw [loadBitrate_pack _ _ hexp hm18, if_neg hmne]
  refine ⟨_, rfl, ?_, ?_⟩
  · have hle : ((encLoop 256 v).1.floor.toNat : ℚ) ≤ (encLoop 256 v).1 := by
      rw [hcast]
      exact rat_floor_le _
    calc ((encLoop 256 v).1.floor.toNat : ℚ) * 2 ^ (encLoop 256 v).2
        ≤ (encLoop 256 v).1 * 2 ^ (encLoop 256 v).2 :=
          mul_le_mul_of_nonneg_right hle (le_of_lt h2e)
    _ = v := hveq.symm
  · have hlt1 : (encLoop 256 v).1 < ((encLoop 256 v).1.floor.toNat : ℚ) + 1 := by
      rw [hcast]
      exact rat_lt_floor_add_one _
    calc v - ((encLoop 256 v).1.floor.toNat : ℚ) * 2 ^ (encLoop 256 v).2
        = ((encLoop 256 v).1 - ((encLoop 256 v).1.floor.toNat : ℚ)) *
            2 ^ (encLoop 256 v).2 := by
          rw [sub_mul, ← hveq]
    _ < 1 * 2 ^ (encLoop 256 v).2 := by
        apply mul_lt_mul_of_pos_right _ h2e
        linarith
    _ = 2 ^ (encLoop 256 v).2 := one_mul _

/-- C2 (witness): the amended quantisation law instantiated at `v = 3`. -/
theorem C2_witness :
    ∃ b0 b1 b2 : ℕ, putBitrate (F32.fin 3) = .ok (b0, b1, b2) ∧
      ∃ d : ℚ, loadBitrate b0 b1 b2 = F32.fin d ∧
        d ≤ 3 ∧ 3 - d < 2 ^ (encLoop 256 3).2 :=
  C2_theorem 3 (by norm_num) (by norm_num)

/-- C4: every float32 that is at least the ceiling `0x3FFFF * 2^63`
(including positive infinity) is saturated, not rejected: `putBitrate`
succeeds and writes exactly the bytes `{0xFF, 0xFF, 0xFF}` (mantissa
`0x3FFFF`, exponent 63). -/
theorem C4_theorem (x : F32)
    (h : (∃ v : ℚ, x = F32.fin v ∧ 0x3FFFF * 2 ^ 63 ≤ v) ∨ x = F32.inf false) :
    putBitrate x = .ok (255, 255, 255) := by
  apply putBitrate_saturates
  rcases h with ⟨v, rfl, hv⟩ | rfl
  · simpa [F32.geQ, bitratemax] using hv
  · decide

/-- C4 (witness): saturation at `+Inf` and at the finite value `2^81`. -/
theorem C4_witness :
    putBitrate (F32.inf false) = .ok (255, 255, 255) ∧
      putBitrate (F32.fin (2 ^ 81)) = .ok (255, 255, 255) :=
  ⟨C4_theorem (F32.inf false) (Or.inr rfl),
   C4_theorem (F32.fin (2 ^ 81)) (Or.inl ⟨2 ^ 81, rfl, by norm_num⟩)⟩

/-- C5: a bitrate that compares `< 0` makes `putBitrate` return
InvalidBitrate before writing anything (in this functional embedding the
error carries no bytes, matching the Go code's early return that leaves the
caller's buffer untouched), and a REMB/TMMBR/TMMBN `Marshal` containing
such a bitrate returns InvalidBitrate with no byte slice. -/
theorem C5_theorem (x : F32) (h : x.lt0 = true) :
    putBitrate x = .error .invalidBitrate ∧
    (∀ s ssrcs, ReceiverEstimatedMaximumBitrate.Marshal ⟨s, x, ssrcs⟩ =
      .error .invalidBitrate) ∧
    (∀ p : TMMBR, (∃ en ∈ p.Entries, en.Bitrate = x) →
      TMMBR.Marshal p = .error .invalidBitrate) ∧
    (∀ p : TMMBN, (∃ en ∈ p.Entries, en.Bitrate = x) →
      TMMBN.Marshal p = .error .invalidBitrate) := by
  have hput := putBitrate_neg x h
  refine ⟨hput, ?_, ?_, ?_⟩
  · intro s ssrcs
    simp [ReceiverEstimatedMaximumBitrate.Marshal, hput]
  · intro p ⟨en, hmem, heq⟩
    have hent : TMMBR.entriesBytes p.Entries = .error .invalidBitrate :=
      tmmbr_entriesBytes_err _ ⟨en, hmem, heq ▸ h⟩
    rw [TMMBR.Marshal, tmmbr_header_marshal_ok, hent]
  · intro p ⟨en, hmem, heq⟩
    have hent : TMMBN.entriesBytes p.Entries = .error .invalidBitrate :=
      tmmbn_entriesBytes_err _ ⟨en, hmem, heq ▸ h⟩
    rw [TMMBN.Marshal, tmmbn_header_marshal_ok, hent]

/-- C5 (witness): rejection of the negative bitrate `-1` in all four
positions. -/
theorem C5_witness :
    putBitrate (F32.fin (-1)) = .error .invalidBitrate ∧
    ReceiverEstimatedMaximumBitrate.Marshal ⟨7, F32.fin (-1), [9]⟩ =
      .error .invalidBitrate ∧
    TMMBR.Marshal ⟨7, [⟨5, F32.fin (-1)⟩]⟩ = .error .invalidBitrate ∧
    TMMBN.Marshal ⟨7, [⟨5, F32.fin (-1)⟩]⟩ = .error .invalidBitrate := by
  obtain ⟨h1, h2, h3, h4⟩ := C5_theorem (F32.fin (-1)) (by decide)
  exact ⟨h1, h2 7 [9],
    h3 ⟨7, [⟨5, F32.fin (-1)⟩]⟩ ⟨⟨5, F32.fin (-1)⟩, by simp, rfl⟩,
    h4 ⟨7, [⟨5, F32.fin (-1)⟩]⟩ ⟨⟨5, F32.fin (-1)⟩, by simp, rfl⟩⟩

/-- Length of a 32-bit write. -/
@[simp] theorem putUint32_length (v : ℕ) : (putUint32 v).length = 4 := by
  simp [putUint32]

/-- Length of a 16-bit write. -/
@[simp] theorem putUint16_length (v : ℕ) : (putUint16 v).length = 2 := by
  simp [putUint16]

/-- Length of a sequence of 32-bit writes. -/
@[simp] theorem flatMap_putUint32_length (l : List ℕ) :
    (l.flatMap putUint32).length = 4 * l.length := by
  induction l with
  | nil => simp
  | cons a t ih =>
    simp [ih]
    ring

/-- Reading at an offset that lands inside the middle block of a
three-block buffer. -/
theorem getD_concat (pre mid rest : List ℕ) (j : ℕ) (hj : j < mid.length) :
    (pre ++ mid ++ rest).getD (pre.length + j) 0 = mid.getD j 0 := by
  rw [List.append_assoc, List.getD_append_right _ _ _ _ (Nat.le_add_right _ _)]
  simp only [Nat.add_sub_cancel_left]
  exact List.getD_append _ _ _ _ hj

/-- A big-endian 32-bit read right after a prefix recovers the value a
32-bit write put there. -/
theorem getUint32D_encode (pre : List ℕ) (v : ℕ) (rest : List ℕ) (hv : v < 2 ^ 32) :
    getUint32D (pre ++ putUint32 v ++ rest) pre.length = v := by
  have g0 := getD_concat pre (putUint32 v) rest 0 (by simp)
  have g1 := getD_concat pre (putUint32 v) rest 1 (by simp)
  have g2 := getD_concat pre (putUint32 v) rest 2 (by simp)
  have g3 := getD_concat pre (putUint32 v) rest 3 (by simp)
  simp only [Nat.add_zero] at g0
  simp only [getUint32D, g0, g1, g2, g3]
  simp only [putUint32, List.getD_cons_zero, List.getD_cons_succ]
  omega

/-- The REMB SSRC-reading loop recovers an encoded SSRC list laid out
right after a prefix. -/
theorem readSSRCs_encode (ssrcs : List ℕ) :
    ∀ pre : List ℕ, (∀ s ∈ ssrcs, s < 2 ^ 32) →
      readSSRCs (pre ++ ssrcs.flatMap putUint32) ssrcs.length pre.length = ssrcs := by
  induction ssrcs with
  | nil =>
    intro pre h
    simp [readSSRCs]
  | cons s tail ih =>
    intro pre h
    have hs : s < 2 ^ 32 := h s (by simp)
    have hbuf : pre ++ (s :: tail).flatMap putUint32 =
        (pre ++ putUint32 s) ++ tail.flatMap putUint32 := by
      simp [List.append_assoc]
    simp only [List.length_cons, readSSRCs, hbuf]
    have hhead : getUint32D ((pre ++ putUint32 s) ++ tail.flatMap putUint32)
        pre.length = s := by
      have := getUint32D_encode pre s (tail.flatMap putUint32) hs
      simpa [List.append_assoc] using this
    have hlen4 : (pre ++ putUint32 s).length = pre.length + 4 := by simp
    have htail := ih (pre ++ putUint32 s) (fun x hx => h x (by simp [hx]))
    rw [hlen4] at htail
    rw [hhead, htail]

/-- Unmarshalling the exact byte image that `MarshalTo` lays out for a
well-formed REMB packet succeeds and reproduces the packet (with the
bitrate bytes decoded by `loadBitrate`). -/
theorem remb_unmarshal_encode (s b0 b1 b2 : ℕ) (ssrcs : List ℕ)
    (hs : s < 2 ^ 32) (hall : ∀ x ∈ ssrcs, x < 2 ^ 32) (hn : ssrcs.length ≤ 255) :
    ReceiverEstimatedMaximumBitrate.Unmarshal
      ([143, 206] ++ putUint16 ((4 + ssrcs.length) % 2 ^ 16) ++ putUint32 s ++
       putUint32 0 ++ [82, 69, 77, 66] ++ [ssrcs.length % 256] ++ [b0, b1, b2] ++
       ssrcs.flatMap putUint32) =
      .ok ⟨s, loadBitrate b0 b1 b2, ssrcs⟩ := by
  have hmod : (4 + ssrcs.length) % 2 ^ 16 = 4 + ssrcs.length := by omega
  have hnmod : ssrcs.length % 256 = ssrcs.length := by omega
  have hb : [143, 206] ++ putUint16 ((4 + ssrcs.length) % 2 ^ 16) ++ putUint32 s ++
       putUint32 0 ++ [82, 69, 77, 66] ++ [ssrcs.length % 256] ++ [b0, b1, b2] ++
       ssrcs.flatMap putUint32 =
      [143, 206, (4 + ssrcs.length) / 2 ^ 8 % 256, (4 + ssrcs.length) % 256,
       s / 2 ^ 24 % 256, s / 2 ^ 16 % 256, s / 2 ^ 8 % 256, s % 256,
       0, 0, 0, 0, 82, 69, 77, 66, ssrcs.length, b0, b1, b2] ++
      ssrcs.flatMap putUint32 := by
    simp [putUint16, putUint32, hmod, hnmod]
    omega
  rw [hb]
  have hL : (4 + ssrcs.length) / 2 ^ 8 % 256 * 2 ^ 8 + (4 + ssrcs.length) % 256
      = 4 + ssrcs.length := by omega
  have hsize : (4 + ssrcs.length + 1) * 4 % 2 ^ 16 = 20 + 4 * ssrcs.length := by
    omega
  simp only [ReceiverEstimatedMaximumBitrate.Unmarshal, List.cons_append,
    List.nil_append, List.getD_cons_zero, List.getD_cons_succ, List.length_cons,
    List.length_append, flatMap_putUint32_length, getUint32D, hL, hsize]
  have hlen20 : ¬ (4 * ssrcs.length + 1 + 1 + 1 + 1 + 1 + 1 + 1 + 1 + 1 + 1 + 1 +
      1 + 1 + 1 + 1 + 1 + 1 + 1 + 1 + 1 < 20) := by omega
  have hlensize : ¬ (4 * ssrcs.length + 1 + 1 + 1 + 1 + 1 + 1 + 1 + 1 + 1 + 1 + 1 +
      1 + 1 + 1 + 1 + 1 + 1 + 1 + 1 + 1 < 20 + 4 * ssrcs.length) := by omega
  have hsz20 : ¬ (20 + 4 * ssrcs.length < 20) := by omega
  have hcount : (20 + 4 * ssrcs.length - 20) / 4 = ssrcs.length := by omega
  have hread := readSSRCs_encode ssrcs [143, 206, (4 + ssrcs.length) / 2 ^ 8 % 256,
      (4 + ssrcs.length) % 256, s / 2 ^ 24 % 256, s / 2 ^ 16 % 256, s / 2 ^ 8 % 256,
      s % 256, 0, 0, 0, 0, 82, 69, 77, 66, ssrcs.length, b0, b1, b2] hall
  simp only [List.length_cons, List.length_nil, List.cons_append,
    List.nil_append] at hread
  norm_num at hread
  have hdig : s / 2 ^ 24 % 256 * 2 ^ 24 + s / 2 ^ 16 % 256 * 2 ^ 16 +
      s / 2 ^ 8 % 256 * 2 ^ 8 + s % 256 = s := by omega
  simp only [hlen20, hsz20, hlensize, if_false, ite_false, hcount, hdig, hread]
  norm_num
  exact hread

/-- Optional read at an offset that lands inside the middle block of a
three-block buffer. -/
theorem getElem?_concat (pre mid rest : List ℕ) (j : ℕ) (hj : j < mid.length) :
    (pre ++ (mid ++ rest))[pre.length + j]? = mid[j]? := by
  rw [List.getElem?_append_right (Nat.le_add_right _ _)]
  simp only [Nat.add_sub_cancel_left]
  exact List.getElem?_append_left hj

/-- A bounds-checked big-endian 32-bit read right after a prefix recovers
the value a 32-bit write put there. -/
theorem readUint32_encode (pre : List ℕ) (v : ℕ) (rest : List ℕ) (hv : v < 2 ^ 32) :
    readUint32 (pre ++ (putUint32 v ++ rest)) pre.length = some v := by
  have g0 : (pre ++ (putUint32 v ++ rest))[pre.length]? = some (v / 2 ^ 24 % 256) := by
    have h := getElem?_concat pre (putUint32 v) rest 0 (by simp)
    simp only [Nat.add_zero] at h
    rw [h]
    rfl
  have g1 : (pre ++ (putUint32 v ++ rest))[pre.length + 1]? = some (v / 2 ^ 16 % 256) := by
    rw [getElem?_concat pre (putUint32 v) rest 1 (by simp)]
    rfl
  have g2 : (pre ++ (putUint32 v ++ rest))[pre.length + 2]? = some (v / 2 ^ 8 % 256) := by
    rw [getElem?_concat pre (putUint32 v) rest 2 (by simp)]
    rfl
  have g3 : (pre ++ (putUint32 v ++ rest))[pre.length + 3]? = some (v % 256) := by
    rw [getElem?_concat pre (putUint32 v) rest 3 (by simp)]
    rfl
  simp only [readUint32, g0, g1, g2, g3]
  congr 1
  omega

/-- The TMMBN entry-reading loop recovers the entry list from the bytes
the FCI-writing loop produced (bitrates quantised). -/
theorem tmmbn_readEntries_encode (l : List TMMBNEntry) :
    ∀ (flat pre : List ℕ) (i : ℕ), pre.length = 8 + 8 * i →
      (∀ en ∈ l, en.MediaSSRC < 2 ^ 32) →
      TMMBN.entriesBytes l = .ok flat →
      TMMBN.readEntries (pre ++ flat) l.length i =
        some (l.map fun en => ⟨en.MediaSSRC, quantizeBitrate en.Bitrate⟩) := by
  induction l with
  | nil =>
    intro flat pre i hpre hwf hok
    simp only [TMMBN.entriesBytes] at hok
    cases hok
    simp [TMMBN.readEntries]
  | cons e rest ih =>
    intro flat pre i hpre hwf hok
    cases hput : putBitrate e.Bitrate with
    | error err => simp [TMMBN.entriesBytes, hput] at hok
    | ok br =>
      cases hrest : TMMBN.entriesBytes rest with
      | error err => simp [TMMBN.entriesBytes, hput, hrest] at hok
      | ok bs =>
        have hflat : flat = putUint32 e.MediaSSRC ++ [br.1, br.2.1, br.2.2, 0] ++ bs := by
          simp only [TMMBN.entriesBytes, hput, hrest] at hok
          cases hok
          rfl
        subst hflat
        have hwfe : e.MediaSSRC < 2 ^ 32 := hwf e (by simp)
        have hoff : ssrcLength * 2 + i * (2 * ssrcLength) = pre.length := by
          simp [ssrcLength, hpre]
          ring
        have hmedia : readUint32
            (pre ++ (putUint32 e.MediaSSRC ++ [br.1, br.2.1, br.2.2, 0] ++ bs))
            pre.length = some e.MediaSSRC := by
          have h := readUint32_encode pre e.MediaSSRC ([br.1, br.2.1, br.2.2, 0] ++ bs) hwfe
          simpa [List.append_assoc] using h
        have hpre4 : (pre ++ putUint32 e.MediaSSRC).length = pre.length + 4 := by simp
        have hx : (pre ++ (putUint32 e.MediaSSRC ++ [br.1, br.2.1, br.2.2, 0] ++ bs))[pre.length + 4]?
            = some br.1 := by
          have h := getElem?_concat (pre ++ putUint32 e.MediaSSRC)
            [br.1, br.2.1, br.2.2, 0] bs 0 (by simp)
          simp only [Nat.add_zero, hpre4] at h
          simpa [List.append_assoc] using h
        have hy : (pre ++ (putUint32 e.MediaSSRC ++ [br.1, br.2.1, br.2.2, 0] ++ bs))[pre.length + 5]?
            = some br.2.1 := by
          have h := getElem?_concat (pre ++ putUint32 e.MediaSSRC)
            [br.1, br.2.1, br.2.2, 0] bs 1 (by simp)
          rw [hpre4] at h
          have hidx : pre.length + 4 + 1 = pre.length + 5 := by omega
          rw [hidx] at h
          simpa [List.append_assoc] using h
        have hz : (pre ++ (putUint32 e.MediaSSRC ++ [br.1, br.2.1, br.2.2, 0] ++ bs))[pre.length + 6]?
            = some br.2.2 := by
          have h := getElem?_concat (pre ++ putUint32 e.MediaSSRC)
            [br.1, br.2.1, br.2.2, 0] bs 2 (by simp)
          rw [hpre4] at h
          have hidx : pre.length + 4 + 2 = pre.length + 6 := by omega
          rw [hidx] at h
          simpa [List.append_assoc] using h
        have htail : TMMBN.readEntries
            ((pre ++ (putUint32 e.MediaSSRC ++ [br.1, br.2.1, br.2.2, 0])) ++ bs)
            rest.length (i + 1) =
            some (rest.map fun en => ⟨en.MediaSSRC, quantizeBitrate en.Bitrate⟩) :=
          ih bs (pre ++ (putUint32 e.MediaSSRC ++ [br.1, br.2.1, br.2.2, 0])) (i + 1)
            (by simp [hpre]; ring) (fun x hx => hwf x (by simp [hx])) hrest
        have hquant : loadBitrate br.1 br.2.1 br.2.2 = quantizeBitrate e.Bitrate := by
          simp [quantizeBitrate, hput]
        simp only [List.length_cons, TMMBN.readEntries, hoff, hmedia, hx, hy, hz]
        rw [show (pre ++ (putUint32 e.MediaSSRC ++ [br.1, br.2.1, br.2.2, 0] ++ bs))
            = ((pre ++ (putUint32 e.MediaSSRC ++ [br.1, br.2.1, br.2.2, 0])) ++ bs) by
          simp [List.append_assoc]]
        rw [htail]
        simp [hquant]

/-- The FCI-writing loop produces 8 bytes per entry. -/
theorem tmmbn_entriesBytes_length (l : List TMMBNEntry) :
    ∀ flat : List ℕ, TMMBN.entriesBytes l = .ok flat → flat.length = 8 * l.length := by
  induction l with
  | nil =>
    intro flat h
    simp only [TMMBN.entriesBytes] at h
    cases h
    simp
  | cons e rest ih =>
    intro flat h
    cases hput : putBitrate e.Bitrate with
    | error err => simp [TMMBN.entriesBytes, hput] at h
    | ok br =>
      cases hrest : TMMBN.entriesBytes rest with
      | error err => simp [TMMBN.entriesBytes, hput, hrest] at h
      | ok bs =>
        simp only [TMMBN.entriesBytes, hput, hrest] at h
        cases h
        simp [ih bs hrest]
        ring

/-- Unmarshalling the exact byte image that `TMMBN.Marshal` lays out for a
well-formed packet succeeds and reproduces the packet with quantised
bitrates. -/
theorem tmmbn_unmarshal_encode (s : ℕ) (entries : List TMMBNEntry) (flat : List ℕ)
    (hs : s < 2 ^ 32) (hwf : ∀ en ∈ entries, en.MediaSSRC < 2 ^ 32)
    (hc : entries.length ≤ 32766)
    (hok : TMMBN.entriesBytes entries = .ok flat) :
    TMMBN.Unmarshal ([132, 205] ++ putUint16 ((2 + 2 * entries.length) % 2 ^ 16) ++
        putUint32 s ++ putUint32 0 ++ flat) =
      .ok ⟨s, entries.map fun en => ⟨en.MediaSSRC, quantizeBitrate en.Bitrate⟩⟩ := by
  have hmod : (2 + 2 * entries.length) % 2 ^ 16 = 2 + 2 * entries.length := by omega
  have hflen : flat.length = 8 * entries.length := tmmbn_entriesBytes_length _ _ hok
  have hb : [132, 205] ++ putUint16 ((2 + 2 * entries.length) % 2 ^ 16) ++
        putUint32 s ++ putUint32 0 ++ flat =
      [132, 205, (2 + 2 * entries.length) / 2 ^ 8 % 256, (2 + 2 * entries.length) % 256,
       s / 2 ^ 24 % 256, s / 2 ^ 16 % 256, s / 2 ^ 8 % 256, s % 256,
       0, 0, 0, 0] ++ flat := by
    simp [putUint16, putUint32, hmod]
    omega
  rw [hb]
  have hL : (2 + 2 * entries.length) / 2 ^ 8 % 256 * 2 ^ 8 +
      (2 + 2 * entries.length) % 256 = 2 + 2 * entries.length := by omega
  have hhdr : Header.Unmarshal
      ([132, 205, (2 + 2 * entries.length) / 2 ^ 8 % 256, (2 + 2 * entries.length) % 256,
        s / 2 ^ 24 % 256, s / 2 ^ 16 % 256, s / 2 ^ 8 % 256, s % 256,
        0, 0, 0, 0] ++ flat) =
      .ok ⟨false, 4, 205, 2 + 2 * entries.length⟩ := by
    have h4 : ¬ (flat.length + 1 + 1 + 1 + 1 + 1 + 1 + 1 + 1 + 1 + 1 + 1 + 1 < 4) := by
      omega
    have hL' : (2 + 2 * entries.length) / 256 % 256 * 256 +
        (2 + 2 * entries.length) % 256 = 2 + 2 * entries.length := by omega
    simp [Header.Unmarshal, headerLength, h4, hL']
  have hdrop : ([132, 205, (2 + 2 * entries.length) / 2 ^ 8 % 256,
      (2 + 2 * entries.length) % 256, s / 2 ^ 24 % 256, s / 2 ^ 16 % 256,
      s / 2 ^ 8 % 256, s % 256, 0, 0, 0, 0] ++ flat).drop 4 =
      [s / 2 ^ 24 % 256, s / 2 ^ 16 % 256, s / 2 ^ 8 % 256, s % 256,
       0, 0, 0, 0] ++ flat := by
    simp
  have hssrc : readUint32 ([s / 2 ^ 24 % 256, s / 2 ^ 16 % 256, s / 2 ^ 8 % 256, s % 256,
      0, 0, 0, 0] ++ flat) 0 = some s := by
    have h := readUint32_encode [] s ([0, 0, 0, 0] ++ flat) hs
    simpa [putUint32] using h
  have hcount : (2 + 2 * entries.length + (2 ^ 16 - 2)) % 2 ^ 16 / 2
      = entries.length := by omega
  have hentries : TMMBN.readEntries ([s / 2 ^ 24 % 256, s / 2 ^ 16 % 256,
      s / 2 ^ 8 % 256, s % 256, 0, 0, 0, 0] ++ flat) entries.length 0 =
      some (entries.map fun en => ⟨en.MediaSSRC, quantizeBitrate en.Bitrate⟩) :=
    tmmbn_readEntries_encode entries flat
      [s / 2 ^ 24 % 256, s / 2 ^ 16 % 256, s / 2 ^ 8 % 256, s % 256, 0, 0, 0, 0] 0
      (by simp) hwf hok
  have hlen12 : ¬ (([132, 205, (2 + 2 * entries.length) / 2 ^ 8 % 256,
      (2 + 2 * entries.length) % 256, s / 2 ^ 24 % 256, s / 2 ^ 16 % 256,
      s / 2 ^ 8 % 256, s % 256, 0, 0, 0, 0] ++ flat).length <
      headerLength + ssrcLength * 2) := by
    simp only [List.length_append, List.length_cons, List.length_nil, hflen,
      headerLength, ssrcLength]
    omega
  have hexpected : ¬ (([132, 205, (2 + 2 * entries.length) / 2 ^ 8 % 256,
      (2 + 2 * entries.length) % 256, s / 2 ^ 24 % 256, s / 2 ^ 16 % 256,
      s / 2 ^ 8 % 256, s % 256, 0, 0, 0, 0] ++ flat).length <
      (2 + 2 * entries.length + 1) * 4 % 2 ^ 16) := by
    simp only [List.length_append, List.length_cons, List.length_nil, hflen]
    have := Nat.mod_le ((2 + 2 * entries.length + 1) * 4) (2 ^ 16)
    omega
  simp only [TMMBN.Unmarshal, hlen12, if_false, ite_false, hhdr, hexpected,
    TypeTransportSpecificFeedback, FormatTMMBN]
  norm_num [headerLength]
  norm_num [List.cons_append, List.nil_append] at hssrc hcount hentries
  simp only [hssrc, hcount, hentries]

/-- The TMMBN FCI-writing loop succeeds when no bitrate compares `< 0`. -/
theorem tmmbn_entriesBytes_ok (l : List TMMBNEntry)
    (h : ∀ en ∈ l, en.Bitrate.lt0 = false) :
    ∃ flat, TMMBN.entriesBytes l = .ok flat := by
  induction l with
  | nil => exact ⟨[], rfl⟩
  | cons e rest ih =>
    obtain ⟨t, hput⟩ := putBitrate_ok_of_not_neg e.Bitrate (h e (by simp))
    obtain ⟨bs, hbs⟩ := ih (fun x hx => h x (by simp [hx]))
    refine ⟨putUint32 e.MediaSSRC ++ [t.1, t.2.1, t.2.2, 0] ++ bs, ?_⟩
    simp [TMMBN.entriesBytes, hput, hbs]

/-- The TMMBR FCI-writing loop succeeds when no bitrate compares `< 0`. -/
theorem tmmbr_entriesBytes_ok (l : List TMMBREntry)
    (h : ∀ en ∈ l, en.Bitrate.lt0 = false) :
    ∃ flat, TMMBR.entriesBytes l = .ok flat := by
  induction l with
  | nil => exact ⟨[], rfl⟩
  | cons e rest ih =>
    obtain ⟨t, hput⟩ := putBitrate_ok_of_not_neg e.Bitrate (h e (by simp))
    obtain ⟨bs, hbs⟩ := ih (fun x hx => h x (by simp [hx]))
    refine ⟨putUint32 e.MediaSSRC ++ [t.1, t.2.1, t.2.2, 0] ++ bs, ?_⟩
    simp [TMMBR.entriesBytes, hput, hbs]

/-- The TMMBR FCI-writing loop produces 8 bytes per entry. -/
theorem tmmbr_entriesBytes_length (l : List TMMBREntry) :
    ∀ flat : List ℕ, TMMBR.entriesBytes l = .ok flat → flat.length = 8 * l.length := by
  induction l with
  | nil =>
    intro flat h
    simp only [TMMBR.entriesBytes] at h
    cases h
    simp
  | cons e rest ih =>
    intro flat h
    cases hput : putBitrate e.Bitrate with
    | error err => simp [TMMBR.entriesBytes, hput] at h
    | ok br =>
      cases hrest : TMMBR.entriesBytes rest with
      | error err => simp [TMMBR.entriesBytes, hput, hrest] at h
      | ok bs =>
        simp only [TMMBR.entriesBytes, hput, hrest] at h
        cases h
        simp [ih bs hrest]
        ring

/-- The TMMBR entry-reading loop recovers the entry list from the bytes
the FCI-writing loop produced (bitrates quantised). -/
theorem tmmbr_readEntries_encode (l : List TMMBREntry) :
    ∀ (flat pre : List ℕ) (i : ℕ), pre.length = 8 + 8 * i →
      (∀ en ∈ l, en.MediaSSRC < 2 ^ 32) →
      TMMBR.entriesBytes l = .ok flat →
      TMMBR.readEntries (pre ++ flat) l.length i =
        some (l.map fun en => ⟨en.MediaSSRC, quantizeBitrate en.Bitrate⟩) := by
  induction l with
  | nil =>
    intro flat pre i hpre hwf hok
    simp only [TMMBR.entriesBytes] at hok
    cases hok
    simp [TMMBR.readEntries]
  | cons e rest ih =>
    intro flat pre i hpre hwf hok
    cases hput : putBitrate e.Bitrate with
    | error err => simp [TMMBR.entriesBytes, hput] at hok
    | ok br =>
      cases hrest : TMMBR.entriesBytes rest with
      | error err => simp [TMMBR.entriesBytes, hput, hrest] at hok
      | ok bs =>
        have hflat : flat = putUint32 e.MediaSSRC ++ [br.1, br.2.1, br.2.2, 0] ++ bs := by
          simp only [TMMBR.entriesBytes, hput, hrest] at hok
          cases hok
          rfl
        subst hflat
        have hwfe : e.MediaSSRC < 2 ^ 32 := hwf e (by simp)
        have hoff : ssrcLength * 2 + i * (2 * ssrcLength) = pre.length := by
          simp [ssrcLength, hpre]
          ring
        have hmedia : readUint32
            (pre ++ (putUint32 e.MediaSSRC ++ [br.1, br.2.1, br.2.2, 0] ++ bs))
            pre.length = some e.MediaSSRC := by
          have h := readUint32_encode pre e.MediaSSRC ([br.1, br.2.1, br.2.2, 0] ++ bs) hwfe
          simpa [List.append_assoc] using h
        have hpre4 : (pre ++ putUint32 e.MediaSSRC).length = pre.length + 4 := by simp
        have hx : (pre ++ (putUint32 e.MediaSSRC ++ [br.1, br.2.1, br.2.2, 0] ++ bs))[pre.length + 4]?
            = some br.1 := by
          have h := getElem?_concat (pre ++ putUint32 e.MediaSSRC)
            [br.1, br.2.1, br.2.2, 0] bs 0 (by simp)
          simp only [Nat.add_zero, hpre4] at h
          simpa [List.append_assoc] using h
        have hy : (pre ++ (putUint32 e.MediaSSRC ++ [br.1, br.2.1, br.2.2, 0] ++ bs))[pre.length + 5]?
            = some br.2.1 := by
          have h := getElem?_concat (pre ++ putUint32 e.MediaSSRC)
            [br.1, br.2.1, br.2.2, 0] bs 1 (by simp)
          rw [hpre4] at h
          have hidx : pre.length + 4 + 1 = pre.length + 5 := by omega
          rw [hidx] at h
          simpa [List.append_assoc] using h
        have hz : (pre ++ (putUint32 e.MediaSSRC ++ [br.1, br.2.1, br.2.2, 0] ++ bs))[pre.length + 6]?
            = some br.2.2 := by
          have h := getElem?_concat (pre ++ putUint32 e.MediaSSRC)
            [br.1, br.2.1, br.2.2, 0] bs 2 (by simp)
          rw [hpre4] at h
          have hidx : pre.length + 4 + 2 = pre.length + 6 := by omega
          rw [hidx] at h
          simpa [List.append_assoc] using h
        have htail : TMMBR.readEntries
            ((pre ++ (putUint32 e.MediaSSRC ++ [br.1, br.2.1, br.2.2, 0])) ++ bs)
            rest.length (i + 1) =
            some (rest.map fun en => ⟨en.MediaSSRC, quantizeBitrate en.Bitrate⟩) :=
          ih bs (pre ++ (putUint32 e.MediaSSRC ++ [br.1, br.2.1, br.2.2, 0])) (i + 1)
            (by simp [hpre]; ring) (fun x hx => hwf x (by simp [hx])) hrest
        have hquant : loadBitrate br.1 br.2.1 br.2.2 = quantizeBitrate e.Bitrate := by
          simp [quantizeBitrate, hput]
        simp only [List.length_cons, TMMBR.readEntries, hoff, hmedia, hx, hy, hz]
        rw [show (pre ++ (putUint32 e.MediaSSRC ++ [br.1, br.2.1, br.2.2, 0] ++ bs))
            = ((pre ++ (putUint32 e.MediaSSRC ++ [br.1, br.2.1, br.2.2, 0])) ++ bs) by
          simp [List.append_assoc]]
        rw [htail]
        simp [hquant]

/-- Unmarshalling the exact byte image that `TMMBR.Marshal` lays out for a
well-formed packet succeeds and reproduces the packet with quantised
bitrates. -/
theorem tmmbr_unmarshal_encode (s : ℕ) (entries : List TMMBREntry) (flat : List ℕ)
    (hs : s < 2 ^ 32) (hwf : ∀ en ∈ entries, en.MediaSSRC < 2 ^ 32)
    (hc : entries.length ≤ 32766)
    (hok : TMMBR.entriesBytes entries = .ok flat) :
    TMMBR.Unmarshal ([131, 205] ++ putUint16 ((2 + 2 * entries.length) % 2 ^ 16) ++
        putUint32 s ++ putUint32 0 ++ flat) =
      .ok ⟨s, entries.map fun en => ⟨en.MediaSSRC, quantizeBitrate en.Bitrate⟩⟩ := by
  have hmod : (2 + 2 * entries.length) % 2 ^ 16 = 2 + 2 * entries.length := by omega
  have hflen : flat.length = 8 * entries.length := tmmbr_entriesBytes_length _ _ hok
  have hb : [131, 205] ++ putUint16 ((2 + 2 * entries.length) % 2 ^ 16) ++
        putUint32 s ++ putUint32 0 ++ flat =
      [131, 205, (2 + 2 * entries.length) / 2 ^ 8 % 256, (2 + 2 * entries.length) % 256,
       s / 2 ^ 24 % 256, s / 2 ^ 16 % 256, s / 2 ^ 8 % 256, s % 256,
       0, 0, 0, 0] ++ flat := by
    simp [putUint16, putUint32, hmod]
    omega
  rw [hb]
  have hhdr : Header.Unmarshal
      ([131, 205, (2 + 2 * entries.length) / 2 ^ 8 % 256, (2 + 2 * entries.length) % 256,
        s / 2 ^ 24 % 256, s / 2 ^ 16 % 256, s / 2 ^ 8 % 256, s % 256,
        0, 0, 0, 0] ++ flat) =
      .ok ⟨false, 3, 205, 2 + 2 * entries.length⟩ := by
    have h4 : ¬ (flat.length + 1 + 1 + 1 + 1 + 1 + 1 + 1 + 1 + 1 + 1 + 1 + 1 < 4) := by
      omega
    have hL' : (2 + 2 * entries.length) / 256 % 256 * 256 +
        (2 + 2 * entries.length) % 256 = 2 + 2 * entries.length := by omega
    simp [Header.Unmarshal, headerLength, h4, hL']
  have hssrc : readUint32 ([s / 2 ^ 24 % 256, s / 2 ^ 16 % 256, s / 2 ^ 8 % 256, s % 256,
      0, 0, 0, 0] ++ flat) 0 = some s := by
    have h := readUint32_encode [] s ([0, 0, 0, 0] ++ flat) hs
    simpa [putUint32] using h
  have hcount : (2 + 2 * entries.length + (2 ^ 16 - 2)) % 2 ^ 16 / 2
      = entries.length := by omega
  have hentries : TMMBR.readEntries ([s / 2 ^ 24 % 256, s / 2 ^ 16 % 256,
      s / 2 ^ 8 % 256, s % 256, 0, 0, 0, 0] ++ flat) entries.length 0 =
      some (entries.map fun en => ⟨en.MediaSSRC, quantizeBitrate en.Bitrate⟩) :=
    tmmbr_readEntries_encode entries flat
      [s / 2 ^ 24 % 256, s / 2 ^ 16 % 256, s / 2 ^ 8 % 256, s % 256, 0, 0, 0, 0] 0
      (by simp) hwf hok
  have hlen12 : ¬ (([131, 205, (2 + 2 * entries.length) / 2 ^ 8 % 256,
      (2 + 2 * entries.length) % 256, s / 2 ^ 24 % 256, s / 2 ^ 16 % 256,
      s / 2 ^ 8 % 256, s % 256, 0, 0, 0, 0] ++ flat).length <
      headerLength + ssrcLength * 2) := by
    simp only [List.length_append, List.length_cons, List.length_nil, hflen,
      headerLength, ssrcLength]
    omega
  have hexpected : ¬ (([131, 205, (2 + 2 * entries.length) / 2 ^ 8 % 256,
      (2 + 2 * entries.length) % 256, s / 2 ^ 24 % 256, s / 2 ^ 16 % 256,
      s / 2 ^ 8 % 256, s % 256, 0, 0, 0, 0] ++ flat).length <
      (2 + 2 * entries.length + 1) * 4 % 2 ^ 16) := by
    simp only [List.length_append, List.length_cons, List.length_nil, hflen]
    have := Nat.mod_le ((2 + 2 * entries.length + 1) * 4) (2 ^ 16)
    omega
  simp only [TMMBR.Unmarshal, hlen12, if_false, ite_false, hhdr, hexpected,
    TypeTransportSpecificFeedback, FormatTMMBR]
  norm_num [headerLength]
  norm_num [List.cons_append, List.nil_append] at hssrc hcount hentries
  simp only [hssrc, hcount, hentries]

/-- Marshal-then-unmarshal round trip for a well-formed REMB packet. -/
theorem remb_roundtrip (p : ReceiverEstimatedMaximumBitrate) (h : p.WF) :
    ∃ bytes, p.Marshal = .ok bytes ∧
      ReceiverEstimatedMaximumBitrate.Unmarshal bytes =
        .ok ⟨p.SenderSSRC, quantizeBitrate p.Bitrate, p.SSRCs⟩ := by
  obtain ⟨hs, hall, hn, v, hbv, hv⟩ := h
  have hlt0 : p.Bitrate.lt0 = false := by
    rw [hbv]
    simp only [F32.lt0, decide_eq_false_iff_not, not_lt]
    exact hv
  obtain ⟨t, hput⟩ := putBitrate_ok_of_not_neg p.Bitrate hlt0
  have hquant : loadBitrate t.1 t.2.1 t.2.2 = quantizeBitrate p.Bitrate := by
    simp [quantizeBitrate, hput]
  have hdiv : (p.MarshalSize / 4 - 1) % 2 ^ 16 = (4 + p.SSRCs.length) % 2 ^ 16 := by
    simp only [ReceiverEstimatedMaximumBitrate.MarshalSize]
    congr 1
    omega
  refine ⟨[143, 206] ++ putUint16 ((4 + p.SSRCs.length) % 2 ^ 16) ++
      putUint32 p.SenderSSRC ++ putUint32 0 ++ [82, 69, 77, 66] ++
      [p.SSRCs.length % 256] ++ [t.1, t.2.1, t.2.2] ++
      p.SSRCs.flatMap putUint32, ?_, ?_⟩
  · simp only [ReceiverEstimatedMaximumBitrate.Marshal, hput, hdiv]
  · rw [remb_unmarshal_encode p.SenderSSRC t.1 t.2.1 t.2.2 p.SSRCs hs hall hn, hquant]

/-- Marshal-then-unmarshal round trip for a well-formed TMMBR packet. -/
theorem tmmbr_roundtrip (p : TMMBR) (h : p.WF) :
    ∃ bytes, p.Marshal = .ok bytes ∧
      TMMBR.Unmarshal bytes = .ok ⟨p.SenderSSRC,
        p.Entries.map fun en => ⟨en.MediaSSRC, quantizeBitrate en.Bitrate⟩⟩ := by
  obtain ⟨hs, hwfm, hc, hwb⟩ := h
  have hlt0 : ∀ en ∈ p.Entries, en.Bitrate.lt0 = false := by
    intro en hen
    obtain ⟨v, hbv, hv⟩ := hwb en hen
    rw [hbv]
    simp only [F32.lt0, decide_eq_false_iff_not, not_lt]
    exact hv
  obtain ⟨flat, hflat⟩ := tmmbr_entriesBytes_ok p.Entries hlt0
  have hms : p.MarshalSize = 12 + 8 * p.Entries.length := by
    simp [TMMBR.MarshalSize, headerLength, ssrcLength]
    ring
  have hdiv : (p.MarshalSize / 4 - 1) % 2 ^ 16 % 2 ^ 16 =
      (2 + 2 * p.Entries.length) % 2 ^ 16 := by
    rw [hms]
    have : (12 + 8 * p.Entries.length) / 4 - 1 = 2 + 2 * p.Entries.length := by omega
    rw [this]
    omega
  refine ⟨[131, 205] ++ putUint16 ((2 + 2 * p.Entries.length) % 2 ^ 16) ++
      putUint32 p.SenderSSRC ++ putUint32 0 ++ flat, ?_, ?_⟩
  · rw [TMMBR.Marshal, tmmbr_header_marshal_ok, hflat, hdiv]
    simp
  · exact tmmbr_unmarshal_encode p.SenderSSRC p.Entries flat hs hwfm hc hflat

/-- Marshal-then-unmarshal round trip for a well-formed TMMBN packet. -/
theorem tmmbn_roundtrip (p : TMMBN) (h : p.WF) :
    ∃ bytes, p.Marshal = .ok bytes ∧
      TMMBN.Unmarshal bytes = .ok ⟨p.SenderSSRC,
        p.Entries.map fun en => ⟨en.MediaSSRC, quantizeBitrate en.Bitrate⟩⟩ := by
  obtain ⟨hs, hwfm, hc, hwb⟩ := h
  have hlt0 : ∀ en ∈ p.Entries, en.Bitrate.lt0 = false := by
    intro en hen
    obtain ⟨v, hbv, hv⟩ := hwb en hen
    rw [hbv]
    simp only [F32.lt0, decide_eq_false_iff_not, not_lt]
    exact hv
  obtain ⟨flat, hflat⟩ := tmmbn_entriesBytes_ok p.Entries hlt0
  have hms : p.MarshalSize = 12 + 8 * p.Entries.length := by
    simp [TMMBN.MarshalSize, headerLength, ssrcLength]
    ring
  have hdiv : (p.MarshalSize / 4 - 1) % 2 ^ 16 % 2 ^ 16 =
      (2 + 2 * p.Entries.length) % 2 ^ 16 := by
    rw [hms]
    have : (12 + 8 * p.Entries.length) / 4 - 1 = 2 + 2 * p.Entries.length := by omega
    rw [this]
    omega
  refine ⟨[132, 205] ++ putUint16 ((2 + 2 * p.Entries.length) % 2 ^ 16) ++
      putUint32 p.SenderSSRC ++ putUint32 0 ++ flat, ?_, ?_⟩
  · rw [TMMBN.Marshal, tmmbn_header_marshal_ok, hflat, hdiv]
    simp
  · exact tmmbn_unmarshal_encode p.SenderSSRC p.Entries flat hs hwfm hc hflat

/-- C1: for every valid REMB, TMMBR and TMMBN packet (uint32 fields,
destination/entry list small enough for the wire fields, non-negative
finite bitrates), unmarshalling the bytes produced by Marshal succeeds and
reproduces the packet exactly, except that each bitrate field comes back
as the quantised value `loadBitrate (putBitrate bitrate)`
(`quantizeBitrate`). -/
theorem C1_theorem (r : ReceiverEstimatedMaximumBitrate) (q : TMMBR) (t : TMMBN)
    (hr : r.WF) (hq : q.WF) (ht : t.WF) :
    (∃ bytes, r.Marshal = .ok bytes ∧
      ReceiverEstimatedMaximumBitrate.Unmarshal bytes =
        .ok ⟨r.SenderSSRC, quantizeBitrate r.Bitrate, r.SSRCs⟩) ∧
    (∃ bytes, q.Marshal = .ok bytes ∧
      TMMBR.Unmarshal bytes = .ok ⟨q.SenderSSRC,
        q.Entries.map fun en => ⟨en.MediaSSRC, quantizeBitrate en.Bitrate⟩⟩) ∧
    (∃ bytes, t.Marshal = .ok bytes ∧
      TMMBN.Unmarshal bytes = .ok ⟨t.SenderSSRC,
        t.Entries.map fun en => ⟨en.MediaSSRC, quantizeBitrate en.Bitrate⟩⟩) :=
  ⟨remb_roundtrip r hr, tmmbr_roundtrip q hq, tmmbn_roundtrip t ht⟩

/-- C1 (witness): the round trip at concrete packets (the REMB packet of
the spec's test vector and the TMMBN packet of `tmmbn_test.go`). -/
theorem C1_witness :
    (∃ bytes, ReceiverEstimatedMaximumBitrate.Marshal ⟨1, F32.fin 0, [5]⟩ = .ok bytes ∧
      ReceiverEstimatedMaximumBitrate.Unmarshal bytes =
        .ok ⟨1, quantizeBitrate (F32.fin 0), [5]⟩) ∧
    (∃ bytes, TMMBR.Marshal ⟨1, [⟨1000, F32.fin 1000000⟩]⟩ = .ok bytes ∧
      TMMBR.Unmarshal bytes = .ok ⟨1,
        ([⟨1000, F32.fin 1000000⟩] : List TMMBREntry).map fun en =>
          ⟨en.MediaSSRC, quantizeBitrate en.Bitrate⟩⟩) ∧
    (∃ bytes, TMMBN.Marshal ⟨1, [⟨1215622422, F32.fin 8927168⟩]⟩ = .ok bytes ∧
      TMMBN.Unmarshal bytes = .ok ⟨1,
        ([⟨1215622422, F32.fin 8927168⟩] : List TMMBNEntry).map fun en =>
          ⟨en.MediaSSRC, quantizeBitrate en.Bitrate⟩⟩) :=
  C1_theorem ⟨1, F32.fin 0, [5]⟩ ⟨1, [⟨1000, F32.fin 1000000⟩]⟩
    ⟨1, [⟨1215622422, F32.fin 8927168⟩]⟩
    ⟨by norm_num, by simp, by simp, 0, rfl, le_rfl⟩
    ⟨by norm_num, by simp, by simp,
      fun en hen => ⟨1000000, by simp at hen; rw [hen], by norm_num⟩⟩
    ⟨by norm_num, by simp, by simp,
      fun en hen => ⟨8927168, by simp at hen; rw [hen], by norm_num⟩⟩

/-- C3: the claim that TMMBN/TMMBR `Unmarshal` never reads out of bounds
is false: a syntactically valid 12-byte packet with header length field 0
passes every length check, the `uint16` subtraction `header.Length - 2`
wraps around to 65534, `entryCount` becomes 32767, and the first entry
read indexes past the buffer — a Go runtime panic (`.panic` in this
model). -/
theorem C3_theorem :
    TMMBN.Unmarshal [132, 205, 0, 0, 0, 0, 0, 0, 0, 0, 0, 0] = .panic ∧
    TMMBR.Unmarshal [131, 205, 0, 0, 0, 0, 0, 0, 0, 0, 0, 0] = .panic := by
  constructor
  · decide
  · decide

/-- C6 (counterexample): a REMB packet with 256 destination SSRCs
marshals successfully — `MarshalTo` does not fail on an over-long list,
contradicting the claim that the marshal fails when the count does not fit
the one-byte field. -/
theorem C6_counterexample :
    ∃ bytes, ReceiverEstimatedMaximumBitrate.Marshal
      ⟨0, F32.fin 0, List.replicate 256 0⟩ = .ok bytes :=
  ⟨_, rfl⟩

/-- C6 (amended): for every REMB packet with more than 255 destination
SSRCs (and a bitrate that does not compare `< 0`), Marshal succeeds, and
the Num-SSRC byte at offset 16 is written as `byte(len(p.SSRCs))` — the
count silently truncated modulo 256 — rather than failing. -/
theorem C6_theorem (p : ReceiverEstimatedMaximumBitrate)
    (_hbig : 255 < p.SSRCs.length) (hneg : p.Bitrate.lt0 = false) :
    ∃ bytes, p.Marshal = .ok bytes ∧ bytes.getD 16 0 = p.SSRCs.length % 256 := by
  obtain ⟨t, hput⟩ := putBitrate_ok_of_not_neg p.Bitrate hneg
  refine ⟨[143, 206] ++ putUint16 ((p.MarshalSize / 4 - 1) % 2 ^ 16) ++
      putUint32 p.SenderSSRC ++ putUint32 0 ++ [82, 69, 77, 66] ++
      [p.SSRCs.length % 256] ++ [t.1, t.2.1, t.2.2] ++ p.SSRCs.flatMap putUint32,
    by simp only [ReceiverEstimatedMaximumBitrate.Marshal, hput], ?_⟩
  simp [putUint16, putUint32]

/-- C6 (witness): the amended statement at a packet with 256 SSRCs. -/
theorem C6_witness :
    ∃ bytes, ReceiverEstimatedMaximumBitrate.Marshal
        ⟨0, F32.fin 0, List.replicate 256 0⟩ = .ok bytes ∧
      bytes.getD 16 0 = (List.replicate 256 (0 : ℕ)).length % 256 :=
  C6_theorem ⟨0, F32.fin 0, List.replicate 256 0⟩ (by simp) (by decide)

/-- C7 (counterexample): the derived size is NOT the exact-arithmetic
`(length+1)*4`: at length field `0x3FFF` the Go `uint16` product wraps to
0, and a 20-byte buffer passing the byte-0/byte-1 checks is rejected with
HeaderTooSmall, where the exact size 65536 would demand PacketTooShort. -/
theorem C7_counterexample :
    ReceiverEstimatedMaximumBitrate.Unmarshal
      ([143, 206, 63, 255] ++ List.replicate 16 0) = .error .headerTooSmall ∧
    (16383 + 1) * 4 % 2 ^ 16 ≠ (16383 + 1) * 4 := by
  constructor
  · decide
  · decide

/-- C7 (amended): for every buffer of at least 20 bytes passing the
byte-0/byte-1 checks, the derived size is `((length+1)*4) mod 2^16`
(Go `uint16` arithmetic); a wrapped size below 20 is rejected with
HeaderTooSmall and a buffer shorter than the wrapped size with
PacketTooShort. -/
theorem C7_theorem (buf : List ℕ) (b2 b3 : ℕ)
    (h0 : buf[0]? = some 143) (h1 : buf[1]? = some 206)
    (h2 : buf[2]? = some b2) (h3 : buf[3]? = some b3)
    (hlen : 20 ≤ buf.length) :
    ((b2 * 2 ^ 8 + b3 + 1) * 4 % 2 ^ 16 < 20 →
      ReceiverEstimatedMaximumBitrate.Unmarshal buf = .error .headerTooSmall) ∧
    (20 ≤ (b2 * 2 ^ 8 + b3 + 1) * 4 % 2 ^ 16 →
      buf.length < (b2 * 2 ^ 8 + b3 + 1) * 4 % 2 ^ 16 →
      ReceiverEstimatedMaximumBitrate.Unmarshal buf = .error .packetTooShort) := by
  have hnl : ¬ (buf.length < 20) := by omega
  constructor
  · intro hsz
    have hsz' : (b2 * 256 + b3 + 1) * 4 % 65536 < 20 := by omega
    simp [ReceiverEstimatedMaximumBitrate.Unmarshal, hnl, h0, h1, h2, h3, hsz']
  · intro hsz hshort
    have hges' : ¬ ((b2 * 256 + b3 + 1) * 4 % 65536 < 20) := by omega
    have hshort' : buf.length < (b2 * 256 + b3 + 1) * 4 % 65536 := by omega
    simp [ReceiverEstimatedMaximumBitrate.Unmarshal, hnl, h0, h1, h2, h3, hges',
      hshort']

/-- C7 (witness): a 20-byte buffer with length field 10 (wrapped size 44)
is rejected with PacketTooShort. -/
theorem C7_witness :
    ReceiverEstimatedMaximumBitrate.Unmarshal
      ([143, 206, 0, 10] ++ List.replicate 16 0) = .error .packetTooShort :=
  (C7_theorem ([143, 206, 0, 10] ++ List.replicate 16 0) 0 10 (by decide) (by decide)
    (by decide) (by decide) (by decide)).2 (by decide) (by decide)

/-- C8: a REMB with SenderSSRC 1, bitrate 0 and no SSRCs marshals to
exactly 20 bytes beginning `{143, 206, 0, 4, 0, 0, 0, 1}`, and extending it
with N destination SSRCs grows MarshalSize by exactly 4N and the 16-bit
wire length field by exactly N. -/
theorem C8_theorem :
    (∃ bytes, ReceiverEstimatedMaximumBitrate.Marshal ⟨1, F32.fin 0, []⟩ = .ok bytes ∧
      bytes.length = 20 ∧ bytes.take 8 = [143, 206, 0, 4, 0, 0, 0, 1]) ∧
    (∀ ssrcs : List ℕ, ssrcs.length ≤ 255 →
      ReceiverEstimatedMaximumBitrate.MarshalSize ⟨1, F32.fin 0, ssrcs⟩ =
        20 + 4 * ssrcs.length ∧
      ∃ bytes, ReceiverEstimatedMaximumBitrate.Marshal ⟨1, F32.fin 0, ssrcs⟩ =
          .ok bytes ∧
        bytes.getD 2 0 * 2 ^ 8 + bytes.getD 3 0 = 4 + ssrcs.length) := by
  constructor
  · exact ⟨[143, 206, 0, 4, 0, 0, 0, 1, 0, 0, 0, 0, 82, 69, 77, 66, 0, 0, 0, 0],
      by decide, by decide, by decide⟩
  · intro ssrcs hle
    have hput : putBitrate (F32.fin 0) = .ok (0, 0, 0) := by decide
    constructor
    · simp [ReceiverEstimatedMaximumBitrate.MarshalSize]
    · have hms : (ReceiverEstimatedMaximumBitrate.MarshalSize ⟨1, F32.fin 0, ssrcs⟩
          / 4 - 1) % 2 ^ 16 = 4 + ssrcs.length := by
        simp only [ReceiverEstimatedMaximumBitrate.MarshalSize]
        omega
      refine ⟨[143, 206] ++ putUint16 ((ReceiverEstimatedMaximumBitrate.MarshalSize
          ⟨1, F32.fin 0, ssrcs⟩ / 4 - 1) % 2 ^ 16) ++ putUint32 1 ++ putUint32 0 ++
          [82, 69, 77, 66] ++ [ssrcs.length % 256] ++ [0, 0, 0] ++
          ssrcs.flatMap putUint32,
        by simp only [ReceiverEstimatedMaximumBitrate.Marshal, hput], ?_⟩
      simp [putUint16, putUint32, hms]
      omega

/-- C8 (witness): the growth statement at a two-SSRC list. -/
theorem C8_witness :
    ReceiverEstimatedMaximumBitrate.MarshalSize ⟨1, F32.fin 0, [5, 6]⟩ =
      20 + 4 * ([5, 6] : List ℕ).length ∧
    ∃ bytes, ReceiverEstimatedMaximumBitrate.Marshal ⟨1, F32.fin 0, [5, 6]⟩ =
        .ok bytes ∧
      bytes.getD 2 0 * 2 ^ 8 + bytes.getD 3 0 = 4 + ([5, 6] : List ℕ).length :=
  C8_theorem.2 [5, 6] (by norm_num)

/-- For a REMB whose SSRC list has exactly 65532 elements, the `uint16`
length field `(MarshalSize/4 - 1) % 2^16` wraps to 0 while
`MarshalSize/4 - 1 = 65536`. -/
theorem remb_header_length_wraps (ssrcs : List ℕ) (h : ssrcs.length = 65532) :
    (ReceiverEstimatedMaximumBitrate.Header ⟨0, F32.fin 0, ssrcs⟩).Length ≠
      ReceiverEstimatedMaximumBitrate.MarshalSize ⟨0, F32.fin 0, ssrcs⟩ / 4 - 1 := by
  simp only [ReceiverEstimatedMaximumBitrate.Header,
    ReceiverEstimatedMaximumBitrate.MarshalSize, h]
  omega

/-- C9 (counterexample): the header length field is a Go `uint16`; for a
REMB with 65532 destination SSRCs, `MarshalSize/4 - 1 = 65536` wraps to 0
in `Header()`, so `Length = MarshalSize/4 - 1` fails for that list
length. -/
theorem C9_counterexample :
    (ReceiverEstimatedMaximumBitrate.Header
        ⟨0, F32.fin 0, List.replicate 65532 0⟩).Length ≠
      ReceiverEstimatedMaximumBitrate.MarshalSize
        ⟨0, F32.fin 0, List.replicate 65532 0⟩ / 4 - 1 :=
  remb_header_length_wraps _ (List.length_replicate _ _)

/-- C9 (amended): for every REMB/TMMBR/TMMBN value (any list length)
`MarshalSize` is a positive multiple of 4, unconditionally; and whenever
`MarshalSize/4 - 1` fits the 16-bit length field, `Header().Length` equals
`MarshalSize/4 - 1`.  In general the stored field is
`(MarshalSize/4 - 1) mod 2^16`. -/
theorem C9_theorem (r : ReceiverEstimatedMaximumBitrate) (q : TMMBR) (t : TMMBN) :
    (0 < r.MarshalSize ∧ 4 ∣ r.MarshalSize ∧
      (r.MarshalSize / 4 - 1 < 2 ^ 16 → r.Header.Length = r.MarshalSize / 4 - 1)) ∧
    (0 < q.MarshalSize ∧ 4 ∣ q.MarshalSize ∧
      (q.MarshalSize / 4 - 1 < 2 ^ 16 → q.Header.Length = q.MarshalSize / 4 - 1)) ∧
    (0 < t.MarshalSize ∧ 4 ∣ t.MarshalSize ∧
      (t.MarshalSize / 4 - 1 < 2 ^ 16 → t.Header.Length = t.MarshalSize / 4 - 1)) := by
  refine ⟨⟨?_, ?_, fun hr => Nat.mod_eq_of_lt hr⟩,
    ⟨?_, ?_, fun hq => Nat.mod_eq_of_lt hq⟩,
    ⟨?_, ?_, fun ht => Nat.mod_eq_of_lt ht⟩⟩
  · simp [ReceiverEstimatedMaximumBitrate.MarshalSize]
  · exact ⟨5 + r.SSRCs.length, by simp [ReceiverEstimatedMaximumBitrate.MarshalSize]; ring⟩
  · simp [TMMBR.MarshalSize, headerLength, ssrcLength]
  · exact ⟨3 + 2 * q.Entries.length, by simp [TMMBR.MarshalSize, headerLength, ssrcLength]; ring⟩
  · simp [TMMBN.MarshalSize, headerLength, ssrcLength]
  · exact ⟨3 + 2 * t.Entries.length, by simp [TMMBN.MarshalSize, headerLength, ssrcLength]; ring⟩

/-- C9 (witness): the amended statement at small concrete packets, with the
fits-16-bits implications discharged. -/
theorem C9_witness :
    (0 < ReceiverEstimatedMaximumBitrate.MarshalSize ⟨1, F32.fin 0, [5]⟩ ∧
      4 ∣ ReceiverEstimatedMaximumBitrate.MarshalSize ⟨1, F32.fin 0, [5]⟩ ∧
      (ReceiverEstimatedMaximumBitrate.Header ⟨1, F32.fin 0, [5]⟩).Length =
        ReceiverEstimatedMaximumBitrate.MarshalSize ⟨1, F32.fin 0, [5]⟩ / 4 - 1) ∧
    (0 < TMMBR.MarshalSize ⟨1, []⟩ ∧ 4 ∣ TMMBR.MarshalSize ⟨1, []⟩ ∧
      (TMMBR.Header ⟨1, []⟩).Length = TMMBR.MarshalSize ⟨1, []⟩ / 4 - 1) ∧
    (0 < TMMBN.MarshalSize ⟨1, []⟩ ∧ 4 ∣ TMMBN.MarshalSize ⟨1, []⟩ ∧
      (TMMBN.Header ⟨1, []⟩).Length = TMMBN.MarshalSize ⟨1, []⟩ / 4 - 1) :=
  have h := C9_theorem ⟨1, F32.fin 0, [5]⟩ ⟨1, []⟩ ⟨1, []⟩
  ⟨⟨h.1.1, h.1.2.1, h.1.2.2 (by decide)⟩,
    ⟨h.2.1.1, h.2.1.2.1, h.2.1.2.2 (by decide)⟩,
    ⟨h.2.2.1, h.2.2.2.1, h.2.2.2.2 (by decide)⟩⟩

/-- C10: the claim that `bitrateUnit` always returns one of the seven unit
suffixes is false on the code: for the decoded maximum-magnitude bitrate
(`loadBitrate` of `{0xFF,0xFF,0xFF}`, the float32 `0xFFFFC0 * 2^57`), the
loop exits with `powers = 7` because the value is still `≥ 1000` after
seven correctly-rounded float32 divisions by 1000, and `bitUnits[7]`
indexes past the seven-element table — a Go runtime panic, modelled as
`none`. -/
theorem C10_theorem :
    loadBitrate 255 255 255 = F32.fin (16777152 * 2 ^ 57) ∧
    bitrateUnit (loadBitrate 255 255 255) = none := by
  constructor
  · decide
  · decide

example : putBitrate (F32.fin 0) = .ok (0, 0, 0) := by decide
example : putBitrate (F32.fin 8927168) = .ok (26, 32, 223) := by decide
example : loadBitrate 26 32 223 = F32.fin 8927168 := by decide
example : quantizeBitrate (F32.fin 0) = F32.fin (2 ^ 23) := by decide
example : putBitrate (F32.inf false) = .ok (255, 255, 255) := by decide
example : loadBitrate 255 255 255 = F32.fin (16777152 * 2 ^ 57) := by decide
example : putBitrate (F32.fin (-3)) = .error .invalidBitrate := by decide
example : TMMBN.Marshal ⟨1, [⟨1215622422, F32.fin 8927168⟩]⟩ =
    .ok [132, 205, 0, 4, 0, 0, 0, 1, 0, 0, 0, 0, 72, 116, 237, 22, 26, 32, 223, 0] := by
  decide
example : TMMBN.Unmarshal
      [132, 205, 0, 4, 0, 0, 0, 1, 0, 0, 0, 0, 72, 116, 237, 22, 26, 32, 223, 0] =
    .ok ⟨1, [⟨1215622422, F32.fin 8927168⟩]⟩ := by decide
example : ReceiverEstimatedMaximumBitrate.Marshal ⟨1, F32.fin 0, []⟩ =
    .ok [143, 206, 0, 4, 0, 0, 0, 1, 0, 0, 0, 0, 82, 69, 77, 66, 0, 0, 0, 0] := by decide
example : ReceiverEstimatedMaximumBitrate.Unmarshal
      [143, 206, 0, 4, 0, 0, 0, 1, 0, 0, 0, 0, 82, 69, 77, 66, 0, 0, 0, 0] =
    .ok ⟨1, F32.fin (2 ^ 23), []⟩ := by decide
example : TMMBN.Unmarshal [132, 205, 0, 0, 0, 0, 0, 0, 0, 0, 0, 0] = .panic := by decide
